import Mathlib

/-!
Verification of the kmod string hash table (`shared/hash.c`).

The table maps NUL-terminated string keys to opaque value references.  Keys
are modelled as byte lists together with an identity tag (standing for the C
pointer), values as natural numbers (opaque references).  Buckets keep their
live entries as a sorted list; the allocated capacity (`total`) is kept
separately.  Allocation success of each `realloc` is an explicit boolean
oracle argument.  All 32-bit arithmetic of the hash function is `Nat`
arithmetic reduced modulo 2^32.
-/

namespace KmodHash

/-- Truncation to unsigned 32-bit, the arithmetic of `unsigned int`. -/
def u32 (n : Nat) : Nat := n % 4294967296

/-- `get_unaligned((uint16_t *)p)`: the 16-bit word assembled little-endian
from two consecutive bytes.  Modelled from the spec: the helper itself
(`shared/util.h`) is not among the sources; §6 specifies a 16-bit read at an
arbitrary byte offset "preserving the byte order as stored", i.e. the word
`b0 + 256 * b1`. -/
def get16 (b0 b1 : Nat) : Nat := b0 + 256 * b1

/-- One iteration of the main loop of `hash_superfast` (hash.c lines 84-90). -/
def chunkStep (hash w0 w1 : Nat) : Nat :=
  let h1 := u32 (hash + w0)
  let tmp := u32 (w1 <<< 11) ^^^ h1
  let h2 := u32 (h1 <<< 16) ^^^ tmp
  u32 (h2 + (h2 >>> 11))

/-- The main loop of `hash_superfast`: `len/4` iterations, each consuming
4 bytes; returns the hash and the remaining bytes (the final `key` pointer). -/
def hsLoop : Nat → List Nat → Nat → Nat × List Nat
  | 0, key, hash => (hash, key)
  | n + 1, key, hash =>
    let w0 := get16 (key.getD 0 0) (key.getD 1 0)
    let w1 := get16 (key.getD 2 0) (key.getD 3 0)
    hsLoop n (key.drop 4) (chunkStep hash w0 w1)

/-- `case 3` of the trailing-byte switch (hash.c lines 94-99). -/
def hsTail3 (hash a b c : Nat) : Nat :=
  let h1 := u32 (hash + get16 a b)
  let h2 := h1 ^^^ u32 (h1 <<< 16)
  let h3 := h2 ^^^ u32 (c <<< 18)
  u32 (h3 + (h3 >>> 11))

/-- `case 2` of the trailing-byte switch (hash.c lines 101-105). -/
def hsTail2 (hash a b : Nat) : Nat :=
  let h1 := u32 (hash + get16 a b)
  let h2 := h1 ^^^ u32 (h1 <<< 11)
  u32 (h2 + (h2 >>> 17))

/-- `case 1` of the trailing-byte switch (hash.c lines 107-110).  The byte is
taken at its unsigned value (`char` signedness is implementation-defined in C;
keys are treated as byte strings). -/
def hsTail1 (hash a : Nat) : Nat :=
  let h1 := u32 (hash + a)
  let h2 := h1 ^^^ u32 (h1 <<< 10)
  u32 (h2 + (h2 >>> 1))

/-- The final avalanche of `hash_superfast` (hash.c lines 114-119). -/
def avalanche (hash : Nat) : Nat :=
  let h1 := hash ^^^ u32 (hash <<< 3)
  let h2 := u32 (h1 + (h1 >>> 5))
  let h3 := h2 ^^^ u32 (h2 <<< 4)
  let h4 := u32 (h3 + (h3 >>> 17))
  let h5 := h4 ^^^ u32 (h4 <<< 25)
  u32 (h5 + (h5 >>> 6))

/-- `hash_superfast(key, len)` (hash.c lines 73-122): hash starts as `len`,
`rem = len & 3`, the main loop runs `len / 4` times, the switch on `rem`
mixes the trailing bytes, and the avalanche finishes. -/
def hash_superfast (key : List Nat) (len : Nat) : Nat :=
  let rem := len &&& 3
  let p := hsLoop (len / 4) key (u32 len)
  let hash :=
    if rem = 3 then hsTail3 p.1 (p.2.getD 0 0) (p.2.getD 1 0) (p.2.getD 2 0)
    else if rem = 2 then hsTail2 p.1 (p.2.getD 0 0) (p.2.getD 1 0)
    else if rem = 1 then hsTail1 p.1 (p.2.getD 0 0)
    else p.1
  avalanche hash

/-! ## The hash algorithm as the spec words it (§4.1)

An independent rendering of spec steps 1-4, recursing over 4-byte chunks of
the string and dispatching the 0-3 trailing bytes by their shape. -/

/-- Spec §4.1 step 2: one 4-byte chunk, `w0`/`w1` the two little-endian
16-bit words. -/
def spec_chunk (hash w0 w1 : Nat) : Nat :=
  let h1 := u32 (hash + w0)
  let tmp := u32 (w1 <<< 11) ^^^ h1
  let h2 := u32 (h1 <<< 16) ^^^ tmp
  u32 (h2 + (h2 >>> 11))

/-- Spec §4.1 step 3: the 0-3 trailing bytes, by case on how many remain. -/
def spec_tail : List Nat → Nat → Nat
  | [a, b, c], hash =>
    let h1 := u32 (hash + get16 a b)
    let h2 := h1 ^^^ u32 (h1 <<< 16)
    let h3 := h2 ^^^ u32 (c <<< 18)
    u32 (h3 + (h3 >>> 11))
  | [a, b], hash =>
    let h1 := u32 (hash + get16 a b)
    let h2 := h1 ^^^ u32 (h1 <<< 11)
    u32 (h2 + (h2 >>> 17))
  | [a], hash =>
    let h1 := u32 (hash + a)
    let h2 := h1 ^^^ u32 (h1 <<< 10)
    u32 (h2 + (h2 >>> 1))
  | _, hash => hash

/-- Spec §4.1 step 4: the six avalanche steps in order. -/
def spec_avalanche (hash : Nat) : Nat :=
  let h1 := hash ^^^ u32 (hash <<< 3)
  let h2 := u32 (h1 + (h1 >>> 5))
  let h3 := h2 ^^^ u32 (h2 <<< 4)
  let h4 := u32 (h3 + (h3 >>> 17))
  let h5 := h4 ^^^ u32 (h4 <<< 25)
  u32 (h5 + (h5 >>> 6))

/-- Spec §4.1 step 2 applied chunk by chunk, step 3 on what is left. -/
def spec_main : List Nat → Nat → Nat
  | b0 :: b1 :: b2 :: b3 :: rest, hash =>
    spec_main rest (spec_chunk hash (get16 b0 b1) (get16 b2 b3))
  | tail, hash => spec_tail tail hash

/-- Spec §4.1: initialize the hash to the length, process chunks and trailing
bytes, avalanche. -/
def spec_hash (key : List Nat) : Nat :=
  spec_avalanche (spec_main key (u32 key.length))

/-! ## Data model (hash.c lines 14-31)

A key is the C `const char *`: an identity tag standing for the pointer plus
the bytes of the NUL-terminated string; `strcmp` and the hash read only the
bytes.  A value is an opaque reference.  A bucket's `used` field is the
length of its `entries` list (only live entries are modelled); `total` is the
allocated capacity in slots. -/

structure CKey where
  id : Nat
  bytes : List Nat
deriving DecidableEq, Inhabited

structure hash_entry where
  key : CKey
  value : Nat
deriving DecidableEq, Inhabited

structure hash_bucket where
  entries : List hash_entry
  total : Nat
deriving DecidableEq, Inhabited

structure hash where
  count : Nat
  step : Nat
  n_buckets : Nat
  free_value : Bool
  buckets : List hash_bucket
deriving DecidableEq, Inhabited

def ENOMEM : Int := 12
def EEXIST : Int := 17
def ENOENT : Int := 2

/-- The outcome of a mutating call: the C return code, the table afterwards,
and the values passed to the `free_value` destructor during the call. -/
structure op_result where
  ret : Int
  tbl : hash
  freed : List Nat
deriving DecidableEq

/-- C `strcmp` on NUL-terminated byte strings, as an `Ordering`: bytewise
comparison, a strict prefix (terminator 0 against a live byte) is smaller. -/
def strcmpOrd : List Nat → List Nat → Ordering
  | [], [] => .eq
  | [], _ :: _ => .lt
  | _ :: _, [] => .gt
  | a :: as, b :: bs =>
    if a < b then .lt else if b < a then .gt else strcmpOrd as bs

/-- Modelled from the spec: `ALIGN_POWER2` (`shared/util.h`) is not among the
sources; §6 specifies the smallest power of two ≥ the request, minimum 1 for
an input of 0. -/
def align_power2 (n : Nat) : Nat := 2 ^ Nat.clog 2 n

/-- `hash_new(n_buckets, free_value)` (hash.c lines 33-49), the successful
path: the bucket count is rounded up to a power of two, the growth step is
`n_buckets / 32` clamped to [4,64], all buckets start empty with no storage. -/
def hash_new (n_buckets : Nat) (free_value : Bool) : hash :=
  let nb := align_power2 n_buckets
  let s0 := nb / 32
  let s1 := if s0 < 4 then 4 else if s0 > 64 then 64 else s0
  { count := 0, step := s1, n_buckets := nb, free_value := free_value,
    buckets := List.replicate nb ⟨[], 0⟩ }

/-- The bucket index of a key: `hash_superfast(key, strlen(key)) &
(n_buckets - 1)` (hash.c line 134). -/
def keyPos (h : hash) (bytes : List Nat) : Nat :=
  hash_superfast bytes bytes.length &&& (h.n_buckets - 1)

/-- The linear scan of `hash_add` (hash.c lines 148-166): walk the sorted
entries; on an equal key replace key and value in place and report the old
value; on the first larger key insert in front of it; at the end append.
Returns the new entry list and the replaced value, if any. -/
def addScan (k : CKey) (v : Nat) : List hash_entry → List hash_entry × Option Nat
  | [] => ([⟨k, v⟩], none)
  | e :: rest =>
    match strcmpOrd k.bytes e.key.bytes with
    | .eq => (⟨k, v⟩ :: rest, some e.value)
    | .lt => (⟨k, v⟩ :: e :: rest, none)
    | .gt =>
      let r := addScan k v rest
      (e :: r.1, r.2)

/-- The linear scan of `hash_add_unique` (hash.c lines 191-205): like
`addScan` but an equal key aborts with `none`. -/
def uniqueScan (k : CKey) (v : Nat) : List hash_entry → Option (List hash_entry)
  | [] => some [⟨k, v⟩]
  | e :: rest =>
    match strcmpOrd k.bytes e.key.bytes with
    | .eq => none
    | .lt => some (⟨k, v⟩ :: e :: rest)
    | .gt => (uniqueScan k v rest).map (e :: ·)

/-- The tail of `hash_add` after the capacity check, acting on the bucket
`b` (whose `total` the caller has already grown if needed). -/
def hash_add_tail (h : hash) (k : CKey) (v : Nat) (pos : Nat) (b : hash_bucket) :
    op_result :=
  let s := addScan k v b.entries
  match s.2 with
  | some old =>
    ⟨0, { h with buckets := h.buckets.set pos ({ b with entries := s.1 }) },
      if h.free_value then [old] else []⟩
  | none =>
    ⟨0, { h with
          buckets := h.buckets.set pos ({ b with entries := s.1 })
          count := h.count + 1 }, []⟩

/-- `hash_add(hash, key, value)` (hash.c lines 130-170).  `allocOk` is the
success of the `realloc` growing the bucket by one step, attempted first
whenever `used + 1 >= total`; its failure aborts with `-ENOMEM` before
anything is written. -/
def hash_add (h : hash) (k : CKey) (v : Nat) (allocOk : Bool) : op_result :=
  let pos := keyPos h k.bytes
  let b := h.buckets.getD pos default
  if b.entries.length + 1 ≥ b.total then
    if allocOk then hash_add_tail h k v pos ({ b with total := b.total + h.step })
    else ⟨-ENOMEM, h, []⟩
  else hash_add_tail h k v pos b

/-- The tail of `hash_add_unique` after the capacity check.  On a duplicate
the scan aborts, but the bucket (with its possibly already grown `total`) is
what the table now holds. -/
def hash_add_unique_tail (h : hash) (k : CKey) (v : Nat) (pos : Nat)
    (b : hash_bucket) : op_result :=
  match uniqueScan k v b.entries with
  | none => ⟨-EEXIST, { h with buckets := h.buckets.set pos b }, []⟩
  | some es =>
    ⟨0, { h with
          buckets := h.buckets.set pos ({ b with entries := es })
          count := h.count + 1 }, []⟩

/-- `hash_add_unique(hash, key, value)` (hash.c lines 173-209): the growth
check runs before the duplicate check, exactly as in `hash_add`. -/
def hash_add_unique (h : hash) (k : CKey) (v : Nat) (allocOk : Bool) : op_result :=
  let pos := keyPos h k.bytes
  let b := h.buckets.getD pos default
  if b.entries.length + 1 ≥ b.total then
    if allocOk then hash_add_unique_tail h k v pos ({ b with total := b.total + h.step })
    else ⟨-ENOMEM, h, []⟩
  else hash_add_unique_tail h k v pos b

/-- C `bsearch` over `entries[lo..hi)` comparing keys with `strcmp`
(hash_entry_cmp, hash.c lines 211-216): returns the index of some entry with
an equal key. -/
def bsearchIdx (key : List Nat) (es : List hash_entry) (lo hi : Nat) : Option Nat :=
  if _hlt : lo < hi then
    let mid := lo + (hi - lo) / 2
    match strcmpOrd key ((es.getD mid default).key.bytes) with
    | .eq => some mid
    | .lt => bsearchIdx key es lo mid
    | .gt => bsearchIdx key es (mid + 1) hi
  else none
termination_by hi - lo
decreasing_by
  · omega
  · omega

/-- `hash_find(hash, key)` (hash.c lines 218-237): a NULL `entries` array
(never allocated, `total = 0`) yields not-found, otherwise binary search over
the `used` live entries. -/
def hash_find (h : hash) (kbytes : List Nat) : Option Nat :=
  let b := h.buckets.getD (keyPos h kbytes) default
  if b.total = 0 then none
  else match bsearchIdx kbytes b.entries 0 b.entries.length with
    | some i => some ((b.entries.getD i default).value)
    | none => none

/-- `hash_del(hash, key)` (hash.c lines 239-281).  `shrinkOk` is the success
of the shrinking `realloc`; its failure leaves the capacity as it was and the
deletion still succeeds. -/
def hash_del (h : hash) (kbytes : List Nat) (shrinkOk : Bool) : op_result :=
  let pos := keyPos h kbytes
  let b := h.buckets.getD pos default
  if b.total = 0 then ⟨-ENOENT, h, []⟩
  else match bsearchIdx kbytes b.entries 0 b.entries.length with
    | none => ⟨-ENOENT, h, []⟩
    | some i =>
      let old := b.entries.getD i default
      let es := b.entries.eraseIdx i
      let steps_used := es.length / h.step
      let steps_total := b.total / h.step
      let total2 := if steps_used + 1 < steps_total ∧ shrinkOk then
          (steps_used + 1) * h.step else b.total
      ⟨0, { h with
            buckets := h.buckets.set pos ⟨es, total2⟩
            count := h.count - 1 },
        if h.free_value then [old.value] else []⟩

/-- `hash_get_count` (hash.c lines 283-286). -/
def hash_get_count (h : hash) : Nat := h.count

/-! ## Iteration (hash.c lines 288-325)

`struct hash_iter` itself lives in `shared/hash.h`, not among the sources;
its fields are the ones hash.c reads: the bucket index and the entry index,
the latter starting one before the first entry (the C unsigned wrap-around of
`-1` followed by `++` is modelled as an integer). -/

structure hash_iter where
  bucket : Nat
  entry : Int
deriving DecidableEq

/-- `hash_iter_init` (hash.c lines 288-293). -/
def hash_iter_init : hash_iter := ⟨0, -1⟩

/-- The bucket-skipping `for` loop of `hash_iter_next` (hash.c lines
305-311): the first index ≥ `i` whose bucket has a live entry, or
`n_buckets` if none. -/
def nextBucket (h : hash) (i : Nat) : Nat :=
  if i < h.n_buckets then
    if (h.buckets.getD i default).entries.length > 0 then i
    else nextBucket h (i + 1)
  else i
termination_by h.n_buckets - i

/-- `hash_iter_next` (hash.c lines 295-325): step to the next entry of the
current bucket, or to the first entry of the next non-empty bucket; `none`
is the `false` end marker. -/
def hash_iter_next (h : hash) (it : hash_iter) : Option ((CKey × Nat) × hash_iter) :=
  let b := h.buckets.getD it.bucket default
  let e1 : Int := it.entry + 1
  if e1 ≥ (b.entries.length : Int) then
    let b2 := nextBucket h (it.bucket + 1)
    if b2 ≥ h.n_buckets then none
    else
      let e := (h.buckets.getD b2 default).entries.getD 0 default
      some ((e.key, e.value), ⟨b2, 0⟩)
  else
    let e := b.entries.getD e1.toNat default
    some ((e.key, e.value), ⟨it.bucket, e1⟩)

/-- Run the iterator to exhaustion (with fuel), collecting the yielded
pairs. -/
def runIter (h : hash) : hash_iter → Nat → List (CKey × Nat)
  | _, 0 => []
  | it, fuel + 1 =>
    match hash_iter_next h it with
    | none => []
    | some (p, it2) => p :: runIter h it2 fuel

/-- The number of live entries actually stored in the buckets. -/
def sumUsed (h : hash) : Nat := (h.buckets.map (fun b => b.entries.length)).sum

/-- A full traversal: `hash_iter_init` followed by `hash_iter_next` until the
end marker (the fuel is one more than the number of live pairs, which the
traversal never exceeds). -/
def iterAll (h : hash) : List (CKey × Nat) :=
  runIter h hash_iter_init (sumUsed h + 1)

/-- The (key, value) pairs of one bucket, in stored order. -/
def bucketPairs (b : hash_bucket) : List (CKey × Nat) :=
  b.entries.map fun e => (e.key, e.value)

/-- All live (key, value) pairs in bucket-major, entry-minor order: what a
complete traversal is expected to yield. -/
def allPairs (h : hash) : List (CKey × Nat) :=
  (h.buckets.map bucketPairs).flatten

/-- The pairs still to be yielded by an iterator that has consumed the first
`n` entries of bucket `b` and everything before bucket `b`. -/
def tailPairs (h : hash) (b : Nat) (n : Nat) : List (CKey × Nat) :=
  (bucketPairs (h.buckets.getD b default)).drop n
    ++ ((h.buckets.drop (b + 1)).map bucketPairs).flatten

/-- A concrete single-bucket table holding keys "a", "b", "c" with its 4-slot
bucket full (3 used + the next insert would need a 4th and trigger growth);
with one bucket every key hashes to index 0. -/
def tbl3 : hash :=
  { count := 3, step := 4, n_buckets := 1, free_value := false,
    buckets := [⟨[⟨⟨0, [97]⟩, 10⟩, ⟨⟨1, [98]⟩, 20⟩, ⟨⟨2, [99]⟩, 30⟩], 4⟩] }

/-- `tbl3` with a destructor configured and a roomy bucket (capacity 8). -/
def tbl3d : hash :=
  { count := 3, step := 4, n_buckets := 1, free_value := true,
    buckets := [⟨[⟨⟨0, [97]⟩, 10⟩, ⟨⟨1, [98]⟩, 20⟩, ⟨⟨2, [99]⟩, 30⟩], 8⟩] }

/-! ## Order, invariant and reachability -/

/-- `strcmp` says the first key is smaller. -/
def kLt (a b : List Nat) : Prop := strcmpOrd a b = Ordering.lt

instance (a b : List Nat) : Decidable (kLt a b) := by
  unfold kLt
  infer_instance

/-- Entries ordered by their keys, as `hash_entry_cmp` compares them. -/
def entLt (x y : hash_entry) : Prop := kLt x.key.bytes y.key.bytes

instance (x y : hash_entry) : Decidable (entLt x y) := by
  unfold entLt
  infer_instance

/-- A bucket's entry array strictly sorted by byte-wise key comparison. -/
def sortedE (es : List hash_entry) : Prop := es.Pairwise entLt

instance (es : List hash_entry) : Decidable (sortedE es) := by
  unfold sortedE
  infer_instance

/-- Some entry of the list carries exactly these key bytes. -/
def hasKeyB (kb : List Nat) (es : List hash_entry) : Prop :=
  ∃ e ∈ es, e.key.bytes = kb

instance (kb : List Nat) (es : List hash_entry) : Decidable (hasKeyB kb es) := by
  unfold hasKeyB
  infer_instance

/-- The data-structure invariant (spec §3): the bucket array has exactly
`n_buckets` buckets, `n_buckets` is a power of two, the growth step is
positive, `count` is the total of the buckets' used counts, every bucket is
strictly sorted by key, and every entry sits in the bucket its key hashes
to. -/
def Inv (h : hash) : Prop :=
  h.buckets.length = h.n_buckets ∧
  (∃ k, k < h.n_buckets + 1 ∧ h.n_buckets = 2 ^ k) ∧
  0 < h.step ∧
  h.count = sumUsed h ∧
  (∀ b ∈ h.buckets, sortedE b.entries) ∧
  (∀ i < h.buckets.length, ∀ e ∈ (h.buckets.getD i default).entries,
    keyPos h e.key.bytes = i) ∧
  (∀ b ∈ h.buckets, b.entries.length ≤ b.total)

instance : DecidablePred Inv := fun h => by
  unfold Inv
  infer_instance

/-- The tables reachable from `hash_new` by any sequence of `hash_add`,
`hash_add_unique` and `hash_del` calls, under any allocation outcomes. -/
inductive Reach : hash → Prop
  | new (n : Nat) (fv : Bool) : Reach (hash_new n fv)
  | add (h : hash) (k : CKey) (v : Nat) (ok : Bool) :
      Reach h → Reach (hash_add h k v ok).tbl
  | add_unique (h : hash) (k : CKey) (v : Nat) (ok : Bool) :
      Reach h → Reach (hash_add_unique h k v ok).tbl
  | del (h : hash) (kb : List Nat) (ok : Bool) :
      Reach h → Reach (hash_del h kb ok).tbl

/-! ## Theorems -/

/-- The main loop leaves the key pointer 4 bytes further per iteration. -/
theorem hsLoop_snd (n : Nat) : ∀ (key : List Nat) (hash : Nat),
    hsLoop n key hash = ((hsLoop n key hash).1, key.drop (4 * n)) := by
  induction n with
  | zero => intro key hash; simp [hsLoop]
  | succ n ih =>
    intro key hash
    rw [hsLoop, ih]
    simp [List.drop_drop]
    congr 1
    omega

/-- `spec_main` computes what the C main loop plus trailing switch compute. -/
theorem spec_main_eq_hsLoop (key : List Nat) (hash : Nat) :
    spec_main key hash =
      spec_tail (hsLoop (key.length / 4) key hash).2
        (hsLoop (key.length / 4) key hash).1 := by
  induction key, hash using spec_main.induct with
  | case1 b0 b1 b2 b3 rest hash ih =>
    have hlen : (b0 :: b1 :: b2 :: b3 :: rest).length / 4 = rest.length / 4 + 1 := by
      simp only [List.length_cons]
      omega
    rw [spec_main, ih, hlen, hsLoop]
    simp [List.getD, chunkStep, spec_chunk]
  | case2 tail hash h =>
    match tail, h with
    | [], _ => simp [spec_main, hsLoop]
    | [a], _ => simp [spec_main, hsLoop]
    | [a, b], _ => simp [spec_main, hsLoop]
    | [a, b, c], _ => simp [spec_main, hsLoop]
    | a :: b :: c :: d :: r, h => exact absurd rfl (h a b c d r)

/-- C2: for every byte string, `hash_superfast` applied to the string and its
length returns exactly the digest of the spec §4.1 algorithm: hash seeded with
the length, 4-byte chunks mixed through the `w0`/`w1` little-endian word
rules, the 0-3 trailing bytes mixed by the per-remainder rules, and the six
avalanche steps, all in unsigned 32-bit arithmetic. -/
theorem hash_superfast_matches_spec (key : List Nat) :
    hash_superfast key key.length = spec_hash key := by
  have hrem : key.length &&& 3 = key.length % 4 :=
    Nat.and_pow_two_sub_one_eq_mod key.length 2
  have hsnd : (hsLoop (key.length / 4) key (u32 key.length)).2
      = key.drop (4 * (key.length / 4)) := by
    rw [hsLoop_snd]
  have hlen2 : (hsLoop (key.length / 4) key (u32 key.length)).2.length
      = key.length % 4 := by
    rw [hsnd, List.length_drop]
    omega
  unfold hash_superfast spec_hash
  rw [spec_main_eq_hsLoop]
  have hcase : key.length % 4 = 0 ∨ key.length % 4 = 1 ∨ key.length % 4 = 2 ∨
      key.length % 4 = 3 := by omega
  rcases hcase with h0 | h1 | h2 | h3
  · rw [h0, List.length_eq_zero] at hlen2
    simp [hrem, h0, hlen2, avalanche, spec_avalanche, spec_tail]
  · rw [h1, List.length_eq_one] at hlen2
    obtain ⟨a, ha⟩ := hlen2
    simp [hrem, h1, ha, avalanche, spec_avalanche, spec_tail, hsTail1, List.getD]
  · rw [h2, List.length_eq_two] at hlen2
    obtain ⟨a, b, hab⟩ := hlen2
    simp [hrem, h2, hab, avalanche, spec_avalanche, spec_tail, hsTail2, List.getD]
  · rw [h3, List.length_eq_three] at hlen2
    obtain ⟨a, b, c, habc⟩ := hlen2
    simp [hrem, h3, habc, avalanche, spec_avalanche, spec_tail, hsTail3, List.getD]

/-! ### `strcmp` order theory -/

theorem strcmpOrd_self (a : List Nat) : strcmpOrd a a = Ordering.eq := by
  induction a with
  | nil => rfl
  | cons x xs ih => simp [strcmpOrd, ih]

theorem strcmpOrd_eq_iff : ∀ {a b : List Nat}, strcmpOrd a b = Ordering.eq ↔ a = b := by
  intro a
  induction a with
  | nil =>
    intro b
    cases b <;> simp [strcmpOrd]
  | cons x xs ih =>
    intro b
    cases b with
    | nil => simp [strcmpOrd]
    | cons y ys =>
      simp only [strcmpOrd, List.cons.injEq]
      rcases Nat.lt_trichotomy x y with h | h | h
      · have h2 : x ≠ y := by omega
        simp [h, h2]
      · subst h
        simp [Nat.lt_irrefl, ih]
      · have h1 : ¬ x < y := by omega
        have h2 : x ≠ y := by omega
        simp [h1, h, h2]

theorem strcmp_cons_lt_iff {x y : Nat} {xs ys : List Nat} :
    strcmpOrd (x :: xs) (y :: ys) = Ordering.lt ↔
      x < y ∨ (x = y ∧ strcmpOrd xs ys = Ordering.lt) := by
  simp only [strcmpOrd]
  rcases Nat.lt_trichotomy x y with h | h | h
  · simp [h]
  · subst h
    simp [Nat.lt_irrefl]
  · have h1 : ¬ x < y := by omega
    have h2 : x ≠ y := by omega
    simp [h1, h, h2]

theorem strcmpOrd_swap : ∀ (a b : List Nat), strcmpOrd a b = (strcmpOrd b a).swap := by
  intro a
  induction a with
  | nil =>
    intro b
    cases b <;> rfl
  | cons x xs ih =>
    intro b
    cases b with
    | nil => rfl
    | cons y ys =>
      simp only [strcmpOrd]
      rcases Nat.lt_trichotomy x y with h | h | h
      · have h2 : ¬ y < x := by omega
        simp [h, h2]
        decide
      · subst h
        simp [Nat.lt_irrefl, ih]
      · have h2 : ¬ x < y := by omega
        simp [h, h2]
        decide

theorem strcmpOrd_gt_iff {a b : List Nat} :
    strcmpOrd a b = Ordering.gt ↔ strcmpOrd b a = Ordering.lt := by
  rw [strcmpOrd_swap a b]
  cases strcmpOrd b a <;> simp [Ordering.swap]

theorem kLt_trans : ∀ {a b c : List Nat}, kLt a b → kLt b c → kLt a c := by
  unfold kLt
  intro a
  induction a with
  | nil =>
    intro b c hab hbc
    cases b with
    | nil => simp [strcmpOrd] at hab
    | cons y ys =>
      cases c with
      | nil => simp [strcmpOrd] at hbc
      | cons z zs => rfl
  | cons x xs ih =>
    intro b c hab hbc
    cases b with
    | nil => simp [strcmpOrd] at hab
    | cons y ys =>
      cases c with
      | nil => simp [strcmpOrd] at hbc
      | cons z zs =>
        rw [strcmp_cons_lt_iff] at hab hbc ⊢
        rcases hab with h | ⟨he, h⟩ <;> rcases hbc with g | ⟨ge, g⟩
        · left; omega
        · left; omega
        · left; omega
        · right
          exact ⟨by omega, ih h g⟩

theorem kLt_irrefl (a : List Nat) : ¬ kLt a a := by
  simp [kLt, strcmpOrd_self]

theorem kLt_ne {a b : List Nat} (h : kLt a b) : a ≠ b := by
  intro he
  subst he
  exact kLt_irrefl a h

theorem entLt_trans {x y z : hash_entry} (h1 : entLt x y) (h2 : entLt y z) :
    entLt x z := kLt_trans h1 h2

/-! ### Insertion-scan lemmas -/

theorem addScan_fst_subset (k : CKey) (v : Nat) :
    ∀ (es : List hash_entry), ∀ x ∈ (addScan k v es).1, x = ⟨k, v⟩ ∨ x ∈ es := by
  intro es
  induction es with
  | nil => simp [addScan]
  | cons e rest ih =>
    intro x hx
    cases hc : strcmpOrd k.bytes e.key.bytes <;>
      simp only [addScan, hc, List.mem_cons] at hx
    · rcases hx with rfl | h | h
      · exact Or.inl rfl
      · exact Or.inr (by simp [h])
      · exact Or.inr (by simp [h])
    · rcases hx with rfl | h
      · exact Or.inl rfl
      · exact Or.inr (by simp [h])
    · rcases hx with rfl | h
      · exact Or.inr (by simp)
      · rcases ih x h with rfl | h2
        · exact Or.inl rfl
        · exact Or.inr (by simp [h2])

theorem addScan_mem (k : CKey) (v : Nat) :
    ∀ (es : List hash_entry), (⟨k, v⟩ : hash_entry) ∈ (addScan k v es).1 := by
  intro es
  induction es with
  | nil => simp [addScan]
  | cons e rest ih =>
    cases hc : strcmpOrd k.bytes e.key.bytes <;> simp [addScan, hc, ih]

theorem addScan_not_found (k : CKey) (v : Nat) :
    ∀ (es : List hash_entry), (∀ e ∈ es, e.key.bytes ≠ k.bytes) →
      (addScan k v es).2 = none := by
  intro es
  induction es with
  | nil => simp [addScan]
  | cons e rest ih =>
    intro hne
    cases hc : strcmpOrd k.bytes e.key.bytes
    · simp [addScan, hc]
    · exact absurd (strcmpOrd_eq_iff.mp hc).symm (hne e (by simp))
    · simp only [addScan, hc]
      exact ih fun x hx => hne x (by simp [hx])

theorem addScan_length_of_none (k : CKey) (v : Nat) :
    ∀ (es : List hash_entry), (addScan k v es).2 = none →
      (addScan k v es).1.length = es.length + 1 := by
  intro es
  induction es with
  | nil => simp [addScan]
  | cons e rest ih =>
    intro hn
    cases hc : strcmpOrd k.bytes e.key.bytes <;> simp only [addScan, hc] at hn ⊢
    · simp
    · exact absurd hn (by simp)
    · simp [ih hn]

theorem addScan_sorted (k : CKey) (v : Nat) :
    ∀ (es : List hash_entry), sortedE es → sortedE (addScan k v es).1 := by
  intro es
  induction es with
  | nil =>
    intro _
    simp [addScan, sortedE]
  | cons e rest ih =>
    intro hs
    rw [sortedE, List.pairwise_cons] at hs
    obtain ⟨he, hrest⟩ := hs
    cases hc : strcmpOrd k.bytes e.key.bytes
    · simp only [addScan, hc]
      rw [sortedE, List.pairwise_cons]
      constructor
      · intro y hy
        rcases List.mem_cons.mp hy with rfl | hy2
        · exact hc
        · exact kLt_trans hc (he y hy2)
      · rw [List.pairwise_cons]
        exact ⟨he, hrest⟩
    · simp only [addScan, hc]
      have hb : k.bytes = e.key.bytes := strcmpOrd_eq_iff.mp hc
      rw [sortedE, List.pairwise_cons]
      refine ⟨fun y hy => ?_, hrest⟩
      have hy2 := he y hy
      unfold entLt kLt at hy2 ⊢
      rw [hb]
      exact hy2
    · simp only [addScan, hc]
      rw [sortedE, List.pairwise_cons]
      refine ⟨fun y hy => ?_, ih hrest⟩
      rcases addScan_fst_subset k v rest y hy with rfl | hy2
      · exact strcmpOrd_gt_iff.mp hc
      · exact he y hy2

theorem addScan_replace (k : CKey) (v : Nat) :
    ∀ (es : List hash_entry) (i : Nat), sortedE es → i < es.length →
      (es.getD i default).key.bytes = k.bytes →
      addScan k v es = (es.set i ⟨k, v⟩, some ((es.getD i default).value)) := by
  intro es
  induction es with
  | nil =>
    intro i _ hi
    simp at hi
  | cons e rest ih =>
    intro i hs hi hb
    rw [sortedE, List.pairwise_cons] at hs
    obtain ⟨he, hrest⟩ := hs
    cases i with
    | zero =>
      have hq : strcmpOrd k.bytes e.key.bytes = Ordering.eq := by
        rw [strcmpOrd_eq_iff]
        simpa using hb.symm
      simp [addScan, hq]
    | succ n =>
      have hn : n < rest.length := by simpa using hi
      have hb2 : (rest.getD n default).key.bytes = k.bytes := by simpa using hb
      have hmem : rest.getD n default ∈ rest := by
        rw [List.getD_eq_getElem _ _ hn]
        exact List.getElem_mem _
      have hlt := he _ hmem
      have hgt : strcmpOrd k.bytes e.key.bytes = Ordering.gt := by
        rw [strcmpOrd_gt_iff]
        unfold entLt kLt at hlt
        rwa [hb2] at hlt
      have ihr := ih n hrest hn hb2
      simp [addScan, hgt, ihr]

theorem uniqueScan_found (k : CKey) (v : Nat) :
    ∀ (es : List hash_entry), sortedE es → hasKeyB k.bytes es →
      uniqueScan k v es = none := by
  intro es
  induction es with
  | nil =>
    intro _ hk
    simp [hasKeyB] at hk
  | cons e rest ih =>
    intro hs hk
    rw [sortedE, List.pairwise_cons] at hs
    obtain ⟨he, hrest⟩ := hs
    obtain ⟨x, hx, hxb⟩ := hk
    cases hc : strcmpOrd k.bytes e.key.bytes
    · exfalso
      rcases List.mem_cons.mp hx with rfl | hx2
      · rw [hxb] at hc
        exact kLt_irrefl k.bytes hc
      · have h1 : kLt e.key.bytes k.bytes := by
          have h2 := he x hx2
          rw [← hxb]
          exact h2
        exact kLt_irrefl k.bytes (kLt_trans hc h1)
    · simp [uniqueScan, hc]
    · rcases List.mem_cons.mp hx with rfl | hx2
      · exfalso
        rw [hxb, strcmpOrd_self] at hc
        simp at hc
      · simp [uniqueScan, hc, ih hrest ⟨x, hx2, hxb⟩]

theorem uniqueScan_not_found (k : CKey) (v : Nat) :
    ∀ (es : List hash_entry), (∀ e ∈ es, e.key.bytes ≠ k.bytes) →
      uniqueScan k v es = some ((addScan k v es).1) := by
  intro es
  induction es with
  | nil => simp [uniqueScan, addScan]
  | cons e rest ih =>
    intro hne
    cases hc : strcmpOrd k.bytes e.key.bytes <;>
      simp only [uniqueScan, addScan, hc]
    · exact absurd (strcmpOrd_eq_iff.mp hc).symm (hne e (by simp))
    · simp [ih fun x hx => hne x (by simp [hx])]

/-! ### Binary search lemmas -/

theorem sortedE_getD_lt {es : List hash_entry} (hs : sortedE es) {i j : Nat}
    (hij : i < j) (hj : j < es.length) :
    kLt (es.getD i default).key.bytes (es.getD j default).key.bytes := by
  rw [sortedE, List.pairwise_iff_getElem] at hs
  have hi : i < es.length := by omega
  rw [List.getD_eq_getElem _ _ hi, List.getD_eq_getElem _ _ hj]
  exact hs i j hi hj hij

theorem sortedE_unique_key {es : List hash_entry} (hs : sortedE es) {i j : Nat}
    (hi : i < es.length) (hj : j < es.length)
    (hb : (es.getD i default).key.bytes = (es.getD j default).key.bytes) :
    i = j := by
  rcases Nat.lt_trichotomy i j with h | h | h
  · have hk := sortedE_getD_lt hs h hj
    rw [hb] at hk
    exact absurd hk (kLt_irrefl _)
  · exact h
  · have hk := sortedE_getD_lt hs h hi
    rw [hb] at hk
    exact absurd hk (kLt_irrefl _)

theorem mem_getD_index {es : List hash_entry} {e : hash_entry} (he : e ∈ es) :
    ∃ i, i < es.length ∧ es.getD i default = e := by
  obtain ⟨i, hi, hg⟩ := List.mem_iff_getElem.mp he
  exact ⟨i, hi, by rw [List.getD_eq_getElem _ _ hi]; exact hg⟩

theorem bsearchIdx_some_spec (kb : List Nat) (es : List hash_entry) :
    ∀ (n lo hi i : Nat), hi - lo ≤ n → bsearchIdx kb es lo hi = some i →
      lo ≤ i ∧ i < hi ∧
        strcmpOrd kb ((es.getD i default).key.bytes) = Ordering.eq := by
  intro n
  induction n with
  | zero =>
    intro lo hi i hle hs
    rw [bsearchIdx] at hs
    have hnl : ¬ lo < hi := by omega
    rw [dif_neg hnl] at hs
    exact absurd hs (by simp)
  | succ n ih =>
    intro lo hi i hle hs
    rw [bsearchIdx] at hs
    by_cases hlt : lo < hi
    · rw [dif_pos hlt] at hs
      cases hc : strcmpOrd kb ((es.getD (lo + (hi - lo) / 2) default).key.bytes) <;>
        simp only [hc] at hs
      · have hrec := ih lo (lo + (hi - lo) / 2) i (by omega) hs
        exact ⟨hrec.1, by omega, hrec.2.2⟩
      · rw [Option.some_inj] at hs
        subst hs
        exact ⟨by omega, by omega, hc⟩
      · have hrec := ih (lo + (hi - lo) / 2 + 1) hi i (by omega) hs
        exact ⟨by omega, hrec.2.1, hrec.2.2⟩
    · rw [dif_neg hlt] at hs
      exact absurd hs (by simp)

theorem bsearchIdx_finds (kb : List Nat) (es : List hash_entry) (hs : sortedE es) :
    ∀ (n lo hi i : Nat), hi - lo ≤ n → lo ≤ i → i < hi → hi ≤ es.length →
      (es.getD i default).key.bytes = kb →
      ∃ j, bsearchIdx kb es lo hi = some j := by
  intro n
  induction n with
  | zero =>
    intro lo hi i h1 h2 h3 h4 h5
    omega
  | succ n ih =>
    intro lo hi i h1 h2 h3 h4 h5
    rw [bsearchIdx]
    have hlt : lo < hi := by omega
    rw [dif_pos hlt]
    cases hc : strcmpOrd kb ((es.getD (lo + (hi - lo) / 2) default).key.bytes)
    · have himid : i < lo + (hi - lo) / 2 := by
        by_contra hge
        push_neg at hge
        rcases Nat.eq_or_lt_of_le hge with he | hlt2
        · rw [he, h5, strcmpOrd_self] at hc
          simp at hc
        · have hk := sortedE_getD_lt hs hlt2 (by omega)
          rw [h5] at hk
          unfold kLt at hk
          rw [← strcmpOrd_gt_iff] at hk
          rw [hc] at hk
          simp at hk
      simp only [hc]
      exact ih lo (lo + (hi - lo) / 2) i (by omega) h2 himid (by omega) h5
    · exact ⟨lo + (hi - lo) / 2, by simp only [hc]⟩
    · have hmidi : lo + (hi - lo) / 2 < i := by
        by_contra hge
        push_neg at hge
        rcases Nat.eq_or_lt_of_le hge with he | hlt2
        · rw [← he, h5, strcmpOrd_self] at hc
          simp at hc
        · have hk := sortedE_getD_lt hs hlt2 (by omega)
          rw [h5] at hk
          unfold kLt at hk
          rw [hc] at hk
          simp at hk
      simp only [hc]
      exact ih (lo + (hi - lo) / 2 + 1) hi i (by omega) (by omega) h3 h4 h5

/-! ### Derived scan lemmas and search wrappers -/

theorem addScan_length_of_some (k : CKey) (v : Nat) :
    ∀ (es : List hash_entry) (old : Nat), (addScan k v es).2 = some old →
      (addScan k v es).1.length = es.length := by
  intro es
  induction es with
  | nil =>
    intro old h
    simp [addScan] at h
  | cons e rest ih =>
    intro old h
    cases hc : strcmpOrd k.bytes e.key.bytes <;> simp only [addScan, hc] at h ⊢
    · exact absurd h (by simp)
    · simp
    · simp [ih _ h]

theorem uniqueScan_some (k : CKey) (v : Nat) :
    ∀ (es es2 : List hash_entry), uniqueScan k v es = some es2 →
      es2 = (addScan k v es).1 ∧ (addScan k v es).2 = none := by
  intro es
  induction es with
  | nil =>
    intro es2 h
    simp only [uniqueScan] at h
    simp [addScan, ← Option.some_inj.mp h]
  | cons e rest ih =>
    intro es2 h
    cases hc : strcmpOrd k.bytes e.key.bytes <;>
      simp only [uniqueScan, hc] at h <;> simp only [addScan, hc]
    · exact ⟨(Option.some_inj.mp h).symm, by trivial⟩
    · exact absurd h (by simp)
    · obtain ⟨t, ht, hcons⟩ := Option.map_eq_some'.mp h
      obtain ⟨h1, h2⟩ := ih t ht
      refine ⟨?_, by simpa using h2⟩
      simp only [← hcons, h1]

theorem bsearch_found_of_hasKey {kb : List Nat} {es : List hash_entry}
    (hs : sortedE es) (hk : hasKeyB kb es) :
    ∃ j, bsearchIdx kb es 0 es.length = some j ∧ j < es.length ∧
      (es.getD j default).key.bytes = kb := by
  obtain ⟨e, he, heb⟩ := hk
  obtain ⟨i, hi, hg⟩ := mem_getD_index he
  obtain ⟨j, hj⟩ := bsearchIdx_finds kb es hs es.length 0 es.length i
    (by omega) (by omega) hi (le_refl _) (by rw [hg, heb])
  obtain ⟨_, hjlen, hcmp⟩ := bsearchIdx_some_spec kb es es.length 0 es.length j
    (by omega) hj
  exact ⟨j, hj, hjlen, ((strcmpOrd_eq_iff.mp hcmp)).symm⟩

theorem bsearch_none_of_not_hasKey {kb : List Nat} {es : List hash_entry}
    (hn : ¬ hasKeyB kb es) :
    bsearchIdx kb es 0 es.length = none := by
  cases hb : bsearchIdx kb es 0 es.length with
  | none => rfl
  | some j =>
    obtain ⟨_, hjlen, hcmp⟩ := bsearchIdx_some_spec kb es es.length 0 es.length j
      (by omega) hb
    exfalso
    apply hn
    refine ⟨es.getD j default, ?_, (strcmpOrd_eq_iff.mp hcmp).symm⟩
    rw [List.getD_eq_getElem _ _ hjlen]
    exact List.getElem_mem _

/-! ### Bucket-sum bookkeeping -/

theorem sum_map_set (L : List hash_bucket) :
    ∀ (i : Nat) (b : hash_bucket), i < L.length →
      ((L.set i b).map fun x => x.entries.length).sum
          + (L.getD i default).entries.length
        = (L.map fun x => x.entries.length).sum + b.entries.length := by
  induction L with
  | nil =>
    intro i b hi
    simp at hi
  | cons x xs ih =>
    intro i b hi
    cases i with
    | zero => simp [List.set]; omega
    | succ n =>
      have hn : n < xs.length := by simpa using hi
      have := ih n b hn
      simp only [List.set, List.map_cons, List.sum_cons, List.getD_cons_succ]
      omega

theorem getD_le_sum (L : List hash_bucket) :
    ∀ (i : Nat), i < L.length →
      (L.getD i default).entries.length ≤ (L.map fun x => x.entries.length).sum := by
  induction L with
  | nil =>
    intro i hi
    simp at hi
  | cons x xs ih =>
    intro i hi
    cases i with
    | zero => simp
    | succ n =>
      have hn : n < xs.length := by simpa using hi
      have := ih n hn
      simp only [List.map_cons, List.sum_cons, List.getD_cons_succ]
      omega

theorem keyPos_lt (h : hash) (hp : ∃ k, h.n_buckets = 2 ^ k)
    (kb : List Nat) : keyPos h kb < h.n_buckets := by
  obtain ⟨k, hk⟩ := hp
  rw [keyPos]
  conv_lhs => rw [hk]
  conv_rhs => rw [hk]
  rw [Nat.and_pow_two_sub_one_eq_mod]
  exact Nat.mod_lt _ (Nat.pos_pow_of_pos _ (by norm_num))

theorem inv_pow2 (h : hash) (hinv : Inv h) : ∃ k, h.n_buckets = 2 ^ k := by
  obtain ⟨k, _, hk⟩ := hinv.2.1
  exact ⟨k, hk⟩

/-! ### Invariant preservation -/

theorem lt_div_succ_mul (a s : Nat) (hs : 0 < s) : a < (a / s + 1) * s := by
  have h1 : a % s < s := Nat.mod_lt a hs
  calc a = s * (a / s) + a % s := (Nat.div_add_mod a s).symm
    _ < s * (a / s) + s := by omega
    _ = (a / s + 1) * s := by ring

theorem inv_update (h : hash) (hinv : Inv h) (pos : Nat) (b2 : hash_bucket)
    (c2 : Nat) (hpos : pos < h.buckets.length)
    (hsort : sortedE b2.entries)
    (hplace : ∀ e ∈ b2.entries, keyPos h e.key.bytes = pos)
    (hcount : c2 + (h.buckets.getD pos default).entries.length
      = h.count + b2.entries.length)
    (hcap : b2.entries.length ≤ b2.total) :
    Inv { h with buckets := h.buckets.set pos b2, count := c2 } := by
  obtain ⟨hlen, hpow, hstep, hcnt, hsrt, hplc, hcaps⟩ := hinv
  refine ⟨by simpa using hlen, hpow, hstep, ?_, ?_, ?_, ?_⟩
  · show c2 = sumUsed _
    have hset := sum_map_set h.buckets pos b2 hpos
    rw [sumUsed] at hcnt ⊢
    simp only []
    omega
  · intro b hb
    simp only [] at hb
    obtain ⟨j, hj, hg⟩ := List.mem_iff_getElem.mp hb
    by_cases hjp : j = pos
    · subst hjp
      rw [List.getElem_set_self] at hg
      rw [← hg]
      exact hsort
    · rw [List.getElem_set_ne (fun a => hjp a.symm)] at hg
      rw [← hg]
      exact hsrt _ (List.getElem_mem _)
  · intro i hi e he
    simp only [List.length_set] at hi
    simp only [] at he
    have hgetD : ((h.buckets.set pos b2).getD i default)
        = if i = pos then b2 else h.buckets.getD i default := by
      by_cases hip : i = pos
      · subst hip
        rw [List.getD_eq_getElem _ _ (by simpa using hi), List.getElem_set_self]
        simp
      · rw [List.getD_eq_getElem?_getD, List.getElem?_set_ne (fun a => hip a.symm),
          ← List.getD_eq_getElem?_getD]
        simp [hip]
    rw [hgetD] at he
    by_cases hip : i = pos
    · subst hip
      simp only [if_pos rfl] at he
      have := hplace e he
      rw [keyPos] at this ⊢
      simpa using this
    · simp only [if_neg hip] at he
      have := hplc i hi e he
      rw [keyPos] at this ⊢
      simpa using this
  · intro b hb
    simp only [] at hb
    obtain ⟨j, hj, hg⟩ := List.mem_iff_getElem.mp hb
    by_cases hjp : j = pos
    · subst hjp
      rw [List.getElem_set_self] at hg
      rw [← hg]
      exact hcap
    · rw [List.getElem_set_ne (fun a => hjp a.symm)] at hg
      rw [← hg]
      exact hcaps _ (List.getElem_mem _)

theorem bucket_cap_at (h : hash) (hinv : Inv h) (i : Nat) :
    (h.buckets.getD i default).entries.length ≤ (h.buckets.getD i default).total := by
  by_cases hi : i < h.buckets.length
  · rw [List.getD_eq_getElem _ _ hi]
    exact hinv.2.2.2.2.2.2 _ (List.getElem_mem _)
  · rw [List.getD_eq_getElem?_getD, List.getElem?_eq_none (by omega)]
    exact Nat.le_refl _

theorem bucket_sorted_at (h : hash) (hinv : Inv h) (i : Nat) :
    sortedE ((h.buckets.getD i default).entries) := by
  by_cases hi : i < h.buckets.length
  · rw [List.getD_eq_getElem _ _ hi]
    exact hinv.2.2.2.2.1 _ (List.getElem_mem _)
  · rw [List.getD_eq_getElem?_getD, List.getElem?_eq_none (by omega)]
    have hd : (default : hash_bucket).entries = [] := rfl
    simp only [Option.getD_none, hd, sortedE]
    exact List.Pairwise.nil

theorem inv_hash_add_tail (h : hash) (k : CKey) (v : Nat) (b : hash_bucket)
    (hinv : Inv h)
    (hb : b.entries = (h.buckets.getD (keyPos h k.bytes) default).entries)
    (hcap : b.entries.length + 1 ≤ b.total) :
    Inv (hash_add_tail h k v (keyPos h k.bytes) b).tbl := by
  have hpos : keyPos h k.bytes < h.buckets.length := by
    rw [hinv.1]
    exact keyPos_lt h (inv_pow2 h hinv) k.bytes
  have hsold : sortedE b.entries := by
    rw [hb]
    exact bucket_sorted_at h hinv _
  have hplaceb : ∀ e ∈ b.entries, keyPos h e.key.bytes = keyPos h k.bytes := by
    rw [hb]
    exact fun e he => hinv.2.2.2.2.2.1 _ hpos e he
  cases hsc : (addScan k v b.entries).2 with
  | some oldv =>
    simp only [hash_add_tail, hsc]
    apply inv_update h hinv _ _ _ hpos
    · exact addScan_sorted k v b.entries hsold
    · intro e he
      rcases addScan_fst_subset k v b.entries e he with rfl | he2
      · rfl
      · exact hplaceb e he2
    · simp only []
      rw [addScan_length_of_some k v b.entries oldv hsc, hb]
    · simp only []
      rw [addScan_length_of_some k v b.entries oldv hsc]
      omega
  | none =>
    simp only [hash_add_tail, hsc]
    apply inv_update h hinv _ _ _ hpos
    · exact addScan_sorted k v b.entries hsold
    · intro e he
      rcases addScan_fst_subset k v b.entries e he with rfl | he2
      · rfl
      · exact hplaceb e he2
    · simp only []
      rw [addScan_length_of_none k v b.entries hsc, hb]
      omega
    · simp only []
      rw [addScan_length_of_none k v b.entries hsc]
      omega

theorem inv_hash_add (h : hash) (k : CKey) (v : Nat) (ok : Bool) (hinv : Inv h) :
    Inv (hash_add h k v ok).tbl := by
  simp only [hash_add]
  by_cases hfull : (h.buckets.getD (keyPos h k.bytes) default).entries.length + 1
      ≥ (h.buckets.getD (keyPos h k.bytes) default).total
  · rw [if_pos hfull]
    cases ok
    · simpa using hinv
    · rw [if_pos rfl]
      refine inv_hash_add_tail h k v
        ({ h.buckets.getD (keyPos h k.bytes) default with
            total := (h.buckets.getD (keyPos h k.bytes) default).total + h.step })
        hinv rfl ?_
      have hc := bucket_cap_at h hinv (keyPos h k.bytes)
      have hstep := hinv.2.2.1
      simp only []
      omega
  · rw [if_neg hfull]
    refine inv_hash_add_tail h k v (h.buckets.getD (keyPos h k.bytes) default)
      hinv rfl ?_
    omega

theorem inv_hash_add_unique_tail (h : hash) (k : CKey) (v : Nat) (b : hash_bucket)
    (hinv : Inv h)
    (hb : b.entries = (h.buckets.getD (keyPos h k.bytes) default).entries)
    (hcap : b.entries.length + 1 ≤ b.total) :
    Inv (hash_add_unique_tail h k v (keyPos h k.bytes) b).tbl := by
  have hpos : keyPos h k.bytes < h.buckets.length := by
    rw [hinv.1]
    exact keyPos_lt h (inv_pow2 h hinv) k.bytes
  have hsold : sortedE b.entries := by
    rw [hb]
    exact bucket_sorted_at h hinv _
  have hplaceb : ∀ e ∈ b.entries, keyPos h e.key.bytes = keyPos h k.bytes := by
    rw [hb]
    exact fun e he => hinv.2.2.2.2.2.1 _ hpos e he
  cases hsc : uniqueScan k v b.entries with
  | none =>
    simp only [hash_add_unique_tail, hsc]
    refine inv_update h hinv _ _ _ hpos hsold hplaceb ?_ ?_
    · rw [hb]
    · omega
  | some es2 =>
    obtain ⟨hfst, hsnd⟩ := uniqueScan_some k v b.entries es2 hsc
    simp only [hash_add_unique_tail, hsc]
    apply inv_update h hinv _ _ _ hpos
    · rw [hfst]
      exact addScan_sorted k v b.entries hsold
    · intro e he
      rw [hfst] at he
      rcases addScan_fst_subset k v b.entries e he with rfl | he2
      · rfl
      · exact hplaceb e he2
    · simp only [hfst]
      rw [addScan_length_of_none k v b.entries hsnd, hb]
      omega
    · simp only [hfst]
      rw [addScan_length_of_none k v b.entries hsnd]
      omega

theorem inv_hash_add_unique (h : hash) (k : CKey) (v : Nat) (ok : Bool)
    (hinv : Inv h) : Inv (hash_add_unique h k v ok).tbl := by
  simp only [hash_add_unique]
  by_cases hfull : (h.buckets.getD (keyPos h k.bytes) default).entries.length + 1
      ≥ (h.buckets.getD (keyPos h k.bytes) default).total
  · rw [if_pos hfull]
    cases ok
    · simpa using hinv
    · rw [if_pos rfl]
      refine inv_hash_add_unique_tail h k v
        ({ h.buckets.getD (keyPos h k.bytes) default with
            total := (h.buckets.getD (keyPos h k.bytes) default).total + h.step })
        hinv rfl ?_
      have hc := bucket_cap_at h hinv (keyPos h k.bytes)
      have hstep := hinv.2.2.1
      simp only []
      omega
  · rw [if_neg hfull]
    refine inv_hash_add_unique_tail h k v (h.buckets.getD (keyPos h k.bytes) default)
      hinv rfl ?_
    omega

theorem inv_hash_del (h : hash) (kb : List Nat) (ok : Bool) (hinv : Inv h) :
    Inv (hash_del h kb ok).tbl := by
  simp only [hash_del]
  by_cases hz : (h.buckets.getD (keyPos h kb) default).total = 0
  · rw [if_pos hz]
    exact hinv
  · rw [if_neg hz]
    have hpos : keyPos h kb < h.buckets.length := by
      rw [hinv.1]
      exact keyPos_lt h (inv_pow2 h hinv) kb
    cases hb : bsearchIdx kb ((h.buckets.getD (keyPos h kb) default).entries) 0
        ((h.buckets.getD (keyPos h kb) default).entries.length) with
    | none => exact hinv
    | some i =>
      obtain ⟨_, hilen, _⟩ := bsearchIdx_some_spec kb
        ((h.buckets.getD (keyPos h kb) default).entries)
        ((h.buckets.getD (keyPos h kb) default).entries.length) 0
        ((h.buckets.getD (keyPos h kb) default).entries.length) i (by omega) hb
      simp only [hb]
      have hsum := getD_le_sum h.buckets (keyPos h kb) hpos
      have hcnt := hinv.2.2.2.1
      rw [sumUsed] at hcnt
      refine inv_update h hinv (keyPos h kb) _ (h.count - 1) hpos ?_ ?_ ?_ ?_
      · exact List.Pairwise.sublist (List.eraseIdx_sublist _ i)
          (bucket_sorted_at h hinv _)
      · intro e he
        exact hinv.2.2.2.2.2.1 _ hpos e (List.mem_of_mem_eraseIdx he)
      · simp only [List.length_eraseIdx, if_pos hilen]
        omega
      · simp only [List.length_eraseIdx, if_pos hilen]
        split_ifs with hsh
        · have hstep := hinv.2.2.1
          exact Nat.le_of_lt (lt_div_succ_mul _ _ hstep)
        · have hc := bucket_cap_at h hinv (keyPos h kb)
          omega

theorem inv_hash_new (n : Nat) (fv : Bool) : Inv (hash_new n fv) := by
  refine ⟨?_, ?_, ?_, ?_, ?_, ?_, ?_⟩
  · simp [hash_new]
  · refine ⟨Nat.clog 2 n, ?_, by simp [hash_new, align_power2]⟩
    have hlt := Nat.lt_two_pow (Nat.clog 2 n)
    simp only [hash_new, align_power2]
    omega
  · simp only [hash_new]
    split_ifs <;> omega
  · simp [hash_new, sumUsed, List.map_replicate]
  · intro b hb
    simp only [hash_new] at hb
    rw [List.eq_of_mem_replicate hb]
    simp [sortedE]
  · intro i hi e he
    simp only [hash_new] at he hi
    rw [List.getD_eq_getElem _ _ hi, List.getElem_replicate] at he
    simp at he
  · intro b hb
    simp only [hash_new] at hb
    rw [List.eq_of_mem_replicate hb]
    simp

theorem reach_inv : ∀ {h : hash}, Reach h → Inv h := by
  intro h hr
  induction hr with
  | new n fv => exact inv_hash_new n fv
  | add h k v ok _ ih => exact inv_hash_add h k v ok ih
  | add_unique h k v ok _ ih => exact inv_hash_add_unique h k v ok ih
  | del h kb ok _ ih => exact inv_hash_del h kb ok ih

/-! ### Iterator lemmas -/

theorem nextBucket_spec (h : hash) : ∀ (n i : Nat), h.n_buckets - i ≤ n →
    i ≤ nextBucket h i ∧
    (nextBucket h i < h.n_buckets →
      0 < (h.buckets.getD (nextBucket h i) default).entries.length) ∧
    (∀ j, i ≤ j → j < nextBucket h i →
      (h.buckets.getD j default).entries.length = 0) ∧
    (i ≤ h.n_buckets → nextBucket h i ≤ h.n_buckets) := by
  intro n
  induction n with
  | zero =>
    intro i hle
    rw [nextBucket]
    have hni : ¬ i < h.n_buckets := by omega
    rw [if_neg hni]
    exact ⟨le_refl _, by intro hc; omega, by intro j h1 h2; omega, by omega⟩
  | succ n ih =>
    intro i hle
    rw [nextBucket]
    by_cases hlt : i < h.n_buckets
    · rw [if_pos hlt]
      by_cases hne : (h.buckets.getD i default).entries.length > 0
      · rw [if_pos hne]
        exact ⟨le_refl _, fun _ => hne, by intro j h1 h2; omega, by omega⟩
      · rw [if_neg hne]
        obtain ⟨ih1, ih2, ih3, ih4⟩ := ih (i + 1) (by omega)
        refine ⟨by omega, ih2, ?_, fun _ => ih4 (by omega)⟩
        intro j hij hjn
        by_cases hji : j = i
        · subst hji
          omega
        · exact ih3 j (by omega) hjn
    · rw [if_neg hlt]
      exact ⟨le_refl _, by intro hc; omega, by intro j h1 h2; omega, by omega⟩

theorem bucketPairs_length (b : hash_bucket) :
    (bucketPairs b).length = b.entries.length := by
  simp [bucketPairs]

theorem allPairs_length (h : hash) : (allPairs h).length = sumUsed h := by
  rw [allPairs, List.length_flatten, sumUsed, List.map_map]
  congr 1
  apply List.map_congr_left
  intro b _
  simp [bucketPairs]

theorem tailPairs_zero (h : hash) : tailPairs h 0 0 = allPairs h := by
  rw [tailPairs, allPairs, List.drop_zero]
  cases hb : h.buckets with
  | nil =>
    have hd : (default : hash_bucket).entries = [] := rfl
    simp [bucketPairs, hd]
  | cons b0 rest => simp

theorem bucketPairs_drop (bk : hash_bucket) (n : Nat) (hlen : n < bk.entries.length) :
    (bucketPairs bk).drop n
      = ((bk.entries.getD n default).key, (bk.entries.getD n default).value)
        :: (bucketPairs bk).drop (n + 1) := by
  have hp : n < (bucketPairs bk).length := by
    rw [bucketPairs_length]
    exact hlen
  rw [List.drop_eq_getElem_cons hp]
  congr 1
  simp only [bucketPairs, List.getElem_map]
  rw [List.getD_eq_getElem _ _ hlen]

theorem flattenAfter_skip (h : hash) : ∀ (d i j : Nat), j - i ≤ d → i ≤ j →
    j ≤ h.buckets.length →
    (∀ t, i ≤ t → t < j → (h.buckets.getD t default).entries.length = 0) →
    ((h.buckets.drop i).map bucketPairs).flatten
      = ((h.buckets.drop j).map bucketPairs).flatten := by
  intro d
  induction d with
  | zero =>
    intro i j h1 h2 h3 hemp
    have hij : i = j := by omega
    rw [hij]
  | succ d ihd =>
    intro i j h1 h2 h3 hemp
    by_cases hij : i = j
    · rw [hij]
    · have hilt : i < h.buckets.length := by omega
      rw [List.drop_eq_getElem_cons hilt, List.map_cons, List.flatten_cons]
      have hz : (h.buckets[i]).entries.length = 0 := by
        have hh := hemp i (le_refl _) (by omega)
        rwa [List.getD_eq_getElem _ _ hilt] at hh
      have hnil : bucketPairs h.buckets[i] = [] := by
        rw [bucketPairs, List.length_eq_zero.mp hz]
        rfl
      rw [hnil, List.nil_append]
      exact ihd (i + 1) j (by omega) (by omega) h3
        (fun t ht1 ht2 => hemp t (by omega) ht2)

theorem runIter_nil (h : hash) (it : hash_iter) (fuel : Nat)
    (hnext : hash_iter_next h it = none) :
    runIter h it (fuel + 1) = [] := by
  rw [runIter, hnext]

theorem runIter_cons (h : hash) (it : hash_iter) (fuel : Nat) (p : CKey × Nat)
    (it2 : hash_iter) (hnext : hash_iter_next h it = some (p, it2)) :
    runIter h it (fuel + 1) = p :: runIter h it2 fuel := by
  rw [runIter, hnext]

theorem runIter_spec (h : hash) (hlen : h.buckets.length = h.n_buckets) :
    ∀ (fuel : Nat) (b : Nat) (n : Nat),
      n ≤ (h.buckets.getD b default).entries.length →
      (tailPairs h b n).length ≤ fuel →
      runIter h ⟨b, (n : Int) - 1⟩ fuel = tailPairs h b n := by
  intro fuel
  induction fuel with
  | zero =>
    intro b n hn hf
    rw [runIter]
    exact (List.length_eq_zero.mp (by omega)).symm
  | succ fuel ih =>
    intro b n hn hf
    by_cases hend : (n : Int) ≥ ((h.buckets.getD b default).entries.length : Int)
    · have hneq : n = (h.buckets.getD b default).entries.length := by omega
      obtain ⟨sp1, sp2, sp3, sp4⟩ :=
        nextBucket_spec h h.n_buckets (b + 1) (by omega)
      by_cases hb2 : nextBucket h (b + 1) ≥ h.n_buckets
      · have hnext : hash_iter_next h ⟨b, (n : Int) - 1⟩ = none := by
          simp only [hash_iter_next]
          rw [show ((n : Int) - 1 + 1) = (n : Int) from by ring]
          rw [if_pos hend, if_pos hb2]
        rw [runIter_nil h _ fuel hnext]
        have hdrop : (bucketPairs (h.buckets.getD b default)).drop n = [] := by
          apply List.drop_eq_nil_of_le
          rw [bucketPairs_length, hneq]
        have hafter : ((h.buckets.drop (b + 1)).map bucketPairs).flatten = [] := by
          rw [List.flatten_eq_nil_iff]
          intro l hl
          obtain ⟨bk, hbk, hbkl⟩ := List.mem_map.mp hl
          obtain ⟨t, ht, hgt⟩ := List.mem_iff_getElem.mp hbk
          rw [List.getElem_drop] at hgt
          have htlen : b + 1 + t < h.buckets.length := by
            have hld := List.length_drop (b + 1) h.buckets
            omega
          have hz : (h.buckets.getD (b + 1 + t) default).entries.length = 0 :=
            sp3 _ (by omega) (by omega)
          rw [List.getD_eq_getElem _ _ htlen, hgt] at hz
          rw [← hbkl, bucketPairs, List.length_eq_zero.mp hz]
          rfl
        rw [tailPairs, hdrop, hafter]
        rfl
      · push_neg at hb2
        have hblen : nextBucket h (b + 1) < h.buckets.length := by omega
        have hb2used :
            0 < (h.buckets.getD (nextBucket h (b + 1)) default).entries.length :=
          sp2 hb2
        have hnext : hash_iter_next h ⟨b, (n : Int) - 1⟩ =
            some ((((h.buckets.getD (nextBucket h (b + 1)) default).entries.getD 0
                      default).key,
                   ((h.buckets.getD (nextBucket h (b + 1)) default).entries.getD 0
                      default).value),
                  ⟨nextBucket h (b + 1), 0⟩) := by
          simp only [hash_iter_next]
          rw [show ((n : Int) - 1 + 1) = (n : Int) from by ring]
          rw [if_pos hend, if_neg (by omega)]
        rw [runIter_cons h _ fuel _ _ hnext]
        have hskip : ((h.buckets.drop (b + 1)).map bucketPairs).flatten
            = ((h.buckets.drop (nextBucket h (b + 1))).map bucketPairs).flatten :=
          flattenAfter_skip h (nextBucket h (b + 1) - (b + 1)) (b + 1)
            (nextBucket h (b + 1)) (by omega) sp1 (by omega) sp3
        have hcons : ((h.buckets.drop (nextBucket h (b + 1))).map bucketPairs).flatten
            = bucketPairs (h.buckets.getD (nextBucket h (b + 1)) default)
              ++ ((h.buckets.drop (nextBucket h (b + 1) + 1)).map
                    bucketPairs).flatten := by
          rw [List.drop_eq_getElem_cons hblen, List.map_cons, List.flatten_cons,
            List.getD_eq_getElem _ _ hblen]
        have hexp : tailPairs h b n
            = (((h.buckets.getD (nextBucket h (b + 1)) default).entries.getD 0
                  default).key,
               ((h.buckets.getD (nextBucket h (b + 1)) default).entries.getD 0
                  default).value)
              :: tailPairs h (nextBucket h (b + 1)) 1 := by
          rw [tailPairs, tailPairs]
          rw [List.drop_eq_nil_of_le (by rw [bucketPairs_length, hneq])]
          rw [List.nil_append, hskip, hcons]
          conv_lhs =>
            rw [← List.drop_zero
              (bucketPairs (h.buckets.getD (nextBucket h (b + 1)) default))]
          rw [bucketPairs_drop _ 0 hb2used, List.cons_append]
        rw [hexp]
        congr 1
        have hstate : (⟨nextBucket h (b + 1), ((1 : Nat) : Int) - 1⟩ : hash_iter)
            = ⟨nextBucket h (b + 1), 0⟩ := by
          norm_num
        rw [← hstate]
        apply ih
        · omega
        · rw [hexp] at hf
          simp only [List.length_cons] at hf
          omega
    · push_neg at hend
      have hltn : n < (h.buckets.getD b default).entries.length := by
        exact_mod_cast hend
      have hnext : hash_iter_next h ⟨b, (n : Int) - 1⟩ =
          some ((((h.buckets.getD b default).entries.getD n default).key,
                 ((h.buckets.getD b default).entries.getD n default).value),
                ⟨b, (n : Int)⟩) := by
        simp only [hash_iter_next]
        rw [show ((n : Int) - 1 + 1) = (n : Int) from by ring]
        rw [if_neg (by omega)]
        rw [show ((n : Int)).toNat = n from Int.toNat_natCast n]
      rw [runIter_cons h _ fuel _ _ hnext]
      have hexp : tailPairs h b n
          = (((h.buckets.getD b default).entries.getD n default).key,
             ((h.buckets.getD b default).entries.getD n default).value)
            :: tailPairs h b (n + 1) := by
        rw [tailPairs, tailPairs]
        rw [bucketPairs_drop _ n hltn, List.cons_append]
      rw [hexp]
      congr 1
      have hstate : (⟨b, (((n + 1 : Nat)) : Int) - 1⟩ : hash_iter)
          = ⟨b, (n : Int)⟩ := by
        congr 1
        push_cast
        ring
      rw [← hstate]
      apply ih
      · omega
      · rw [hexp] at hf
        simp only [List.length_cons] at hf
        omega

theorem iterAll_eq (h : hash) (hlen : h.buckets.length = h.n_buckets) :
    iterAll h = allPairs h := by
  have h0 : hash_iter_init = (⟨0, ((0 : Nat) : Int) - 1⟩ : hash_iter) := by
    rw [hash_iter_init]
    norm_num
  rw [iterAll, h0, runIter_spec h hlen _ 0 0 (by omega) ?_, tailPairs_zero]
  rw [tailPairs_zero, allPairs_length]
  omega

/-! ### Find and add postconditions -/

theorem keyPos_congr (h1 h2 : hash) (kb : List Nat)
    (hn : h1.n_buckets = h2.n_buckets) : keyPos h1 kb = keyPos h2 kb := by
  rw [keyPos, keyPos, hn]

theorem hash_find_none (h : hash) (kb : List Nat)
    (hn : ¬ hasKeyB kb ((h.buckets.getD (keyPos h kb) default).entries)) :
    hash_find h kb = none := by
  simp only [hash_find]
  by_cases hz : (h.buckets.getD (keyPos h kb) default).total = 0
  · rw [if_pos hz]
  · rw [if_neg hz, bsearch_none_of_not_hasKey hn]

theorem hash_find_mem (h : hash) (kb : List Nat) (e : hash_entry)
    (hs : sortedE ((h.buckets.getD (keyPos h kb) default).entries))
    (hz : (h.buckets.getD (keyPos h kb) default).total ≠ 0)
    (he : e ∈ (h.buckets.getD (keyPos h kb) default).entries)
    (hb : e.key.bytes = kb) :
    hash_find h kb = some e.value := by
  obtain ⟨j, hj, hjlen, hjb⟩ := bsearch_found_of_hasKey hs ⟨e, he, hb⟩
  obtain ⟨i, hi, hg⟩ := mem_getD_index he
  have hij : i = j := sortedE_unique_key hs hi hjlen (by rw [hg, hb, hjb])
  simp only [hash_find, if_neg hz, hj]
  rw [← hij, hg]

theorem hash_add_tail_ret (h : hash) (k : CKey) (v : Nat) (pos : Nat)
    (b : hash_bucket) : (hash_add_tail h k v pos b).ret = 0 := by
  cases hsc : (addScan k v b.entries).2 <;> simp [hash_add_tail, hsc]

theorem hash_add_true_ret (h : hash) (k : CKey) (v : Nat) :
    (hash_add h k v true).ret = 0 := by
  simp only [hash_add]
  by_cases hfull : (h.buckets.getD (keyPos h k.bytes) default).entries.length + 1
      ≥ (h.buckets.getD (keyPos h k.bytes) default).total
  · rw [if_pos hfull, if_pos trivial]
    exact hash_add_tail_ret h k v _ _
  · rw [if_neg hfull]
    exact hash_add_tail_ret h k v _ _

theorem hash_add_tail_post (h : hash) (k : CKey) (v : Nat) (b : hash_bucket)
    (hpos : keyPos h k.bytes < h.buckets.length) (hbz : 0 < b.total) :
    (hash_add_tail h k v (keyPos h k.bytes) b).ret = 0 ∧
    (hash_add_tail h k v (keyPos h k.bytes) b).tbl.n_buckets = h.n_buckets ∧
    (hash_add_tail h k v (keyPos h k.bytes) b).tbl.free_value = h.free_value ∧
    ((hash_add_tail h k v (keyPos h k.bytes) b).tbl.buckets.getD
        (keyPos h k.bytes) default).entries = (addScan k v b.entries).1 ∧
    0 < ((hash_add_tail h k v (keyPos h k.bytes) b).tbl.buckets.getD
        (keyPos h k.bytes) default).total := by
  have hget : ∀ b2 : hash_bucket,
      ((h.buckets.set (keyPos h k.bytes) b2).getD (keyPos h k.bytes) default) = b2 := by
    intro b2
    rw [List.getD_eq_getElem _ _ (by simpa using hpos), List.getElem_set_self]
  cases hsc : (addScan k v b.entries).2 with
  | some oldv =>
    simp only [hash_add_tail, hsc]
    refine ⟨trivial, trivial, trivial, ?_, ?_⟩
    · rw [hget]
    · rw [hget]
      exact hbz
  | none =>
    simp only [hash_add_tail, hsc]
    refine ⟨trivial, trivial, trivial, ?_, ?_⟩
    · rw [hget]
    · rw [hget]
      exact hbz

theorem hash_add_success_post (h : hash) (k : CKey) (v : Nat) (ok : Bool)
    (hinv : Inv h) (hret : (hash_add h k v ok).ret = 0) :
    (hash_add h k v ok).tbl.n_buckets = h.n_buckets ∧
    (hash_add h k v ok).tbl.free_value = h.free_value ∧
    sortedE (((hash_add h k v ok).tbl.buckets.getD (keyPos h k.bytes) default).entries) ∧
    (⟨k, v⟩ : hash_entry) ∈
      ((hash_add h k v ok).tbl.buckets.getD (keyPos h k.bytes) default).entries ∧
    0 < ((hash_add h k v ok).tbl.buckets.getD (keyPos h k.bytes) default).total := by
  have hpos : keyPos h k.bytes < h.buckets.length := by
    rw [hinv.1]
    exact keyPos_lt h (inv_pow2 h hinv) k.bytes
  have hsold : sortedE ((h.buckets.getD (keyPos h k.bytes) default).entries) :=
    bucket_sorted_at h hinv _
  have hstep : 0 < h.step := hinv.2.2.1
  revert hret
  simp only [hash_add]
  by_cases hfull : (h.buckets.getD (keyPos h k.bytes) default).entries.length + 1
      ≥ (h.buckets.getD (keyPos h k.bytes) default).total
  · rw [if_pos hfull]
    cases ok
    · intro hret
      simp at hret
      exact absurd hret (by rw [ENOMEM]; omega)
    · rw [if_pos rfl]
      intro _
      obtain ⟨_, hnb, hfv, hent, htot⟩ := hash_add_tail_post h k v
        ({ h.buckets.getD (keyPos h k.bytes) default with
            total := (h.buckets.getD (keyPos h k.bytes) default).total + h.step })
        hpos (by simp only []; omega)
      refine ⟨hnb, hfv, ?_, ?_, htot⟩
      · rw [hent]
        exact addScan_sorted k v _ hsold
      · rw [hent]
        exact addScan_mem k v _
  · rw [if_neg hfull]
    intro _
    obtain ⟨_, hnb, hfv, hent, htot⟩ := hash_add_tail_post h k v
      (h.buckets.getD (keyPos h k.bytes) default) hpos (by omega)
    refine ⟨hnb, hfv, ?_, ?_, htot⟩
    · rw [hent]
      exact addScan_sorted k v _ hsold
    · rw [hent]
      exact addScan_mem k v _

theorem hash_add_tail_replace (h : hash) (k : CKey) (v : Nat) (b : hash_bucket)
    (hpos : keyPos h k.bytes < h.buckets.length)
    (i : Nat) (hi : i < b.entries.length) (hsb : sortedE b.entries)
    (hib : (b.entries.getD i default).key.bytes = k.bytes) :
    (hash_add_tail h k v (keyPos h k.bytes) b).ret = 0 ∧
    (hash_add_tail h k v (keyPos h k.bytes) b).freed
      = (if h.free_value then [(b.entries.getD i default).value] else []) ∧
    (hash_add_tail h k v (keyPos h k.bytes) b).tbl.count = h.count ∧
    ((hash_add_tail h k v (keyPos h k.bytes) b).tbl.buckets.getD
        (keyPos h k.bytes) default).entries = b.entries.set i ⟨k, v⟩ ∧
    ((hash_add_tail h k v (keyPos h k.bytes) b).tbl.buckets.getD
        (keyPos h k.bytes) default).total = b.total ∧
    (hash_add_tail h k v (keyPos h k.bytes) b).tbl.n_buckets = h.n_buckets ∧
    (hash_add_tail h k v (keyPos h k.bytes) b).tbl.free_value = h.free_value := by
  have hrep := addScan_replace k v b.entries i hsb hi hib
  have hget : ∀ b2 : hash_bucket,
      ((h.buckets.set (keyPos h k.bytes) b2).getD (keyPos h k.bytes) default) = b2 := by
    intro b2
    rw [List.getD_eq_getElem _ _ (by simpa using hpos), List.getElem_set_self]
  simp only [hash_add_tail, hrep]
  refine ⟨trivial, trivial, trivial, ?_, ?_, trivial, trivial⟩
  · rw [hget]
  · rw [hget]

theorem hash_add_replace_post (h : hash) (k : CKey) (v : Nat)
    (hinv : Inv h)
    (hk : hasKeyB k.bytes ((h.buckets.getD (keyPos h k.bytes) default).entries)) :
    ∃ i, i < (h.buckets.getD (keyPos h k.bytes) default).entries.length ∧
      ((h.buckets.getD (keyPos h k.bytes) default).entries.getD i default).key.bytes
        = k.bytes ∧
      (hash_add h k v true).ret = 0 ∧
      (hash_add h k v true).freed = (if h.free_value then
        [((h.buckets.getD (keyPos h k.bytes) default).entries.getD i default).value]
        else []) ∧
      (hash_add h k v true).tbl.count = h.count ∧
      ((hash_add h k v true).tbl.buckets.getD (keyPos h k.bytes) default).entries
        = (h.buckets.getD (keyPos h k.bytes) default).entries.set i ⟨k, v⟩ ∧
      (hash_add h k v true).tbl.n_buckets = h.n_buckets ∧
      (hash_add h k v true).tbl.free_value = h.free_value ∧
      0 < ((hash_add h k v true).tbl.buckets.getD (keyPos h k.bytes) default).total := by
  have hpos : keyPos h k.bytes < h.buckets.length := by
    rw [hinv.1]
    exact keyPos_lt h (inv_pow2 h hinv) k.bytes
  have hsold : sortedE ((h.buckets.getD (keyPos h k.bytes) default).entries) :=
    bucket_sorted_at h hinv _
  have hstep : 0 < h.step := hinv.2.2.1
  obtain ⟨e, he, heb⟩ := hk
  obtain ⟨i, hi, hg⟩ := mem_getD_index he
  have hib : ((h.buckets.getD (keyPos h k.bytes) default).entries.getD i
      default).key.bytes = k.bytes := by
    rw [hg, heb]
  refine ⟨i, hi, hib, ?_⟩
  simp only [hash_add]
  by_cases hfull : (h.buckets.getD (keyPos h k.bytes) default).entries.length + 1
      ≥ (h.buckets.getD (keyPos h k.bytes) default).total
  · rw [if_pos hfull, if_pos trivial]
    obtain ⟨c1, c2, c3, c4, c5, c6, c7⟩ := hash_add_tail_replace h k v
      ({ h.buckets.getD (keyPos h k.bytes) default with
          total := (h.buckets.getD (keyPos h k.bytes) default).total + h.step })
      hpos i hi hsold hib
    refine ⟨c1, c2, c3, c4, c6, c7, ?_⟩
    rw [c5]
    simp only []
    omega
  · rw [if_neg hfull]
    obtain ⟨c1, c2, c3, c4, c5, c6, c7⟩ := hash_add_tail_replace h k v
      (h.buckets.getD (keyPos h k.bytes) default) hpos i hi hsold hib
    refine ⟨c1, c2, c3, c4, c6, c7, ?_⟩
    rw [c5]
    omega

/-! ### Result shapes: the three mutators touch one bucket slot at most -/

theorem getD_set_ne_bucket (L : List hash_bucket) (i j : Nat) (b : hash_bucket)
    (hij : j ≠ i) : (L.set i b).getD j default = L.getD j default := by
  rw [List.getD_eq_getElem?_getD, List.getElem?_set_ne (fun a => hij a.symm),
    ← List.getD_eq_getElem?_getD]

theorem hash_add_tail_shape (h : hash) (k : CKey) (v : Nat) (pos : Nat)
    (b : hash_bucket) :
    ∃ b2 c2, (hash_add_tail h k v pos b).tbl =
      { h with buckets := h.buckets.set pos b2, count := c2 } := by
  cases hsc : (addScan k v b.entries).2 with
  | some o =>
    exact ⟨{ b with entries := (addScan k v b.entries).1 }, h.count,
      by simp only [hash_add_tail, hsc]⟩
  | none =>
    exact ⟨{ b with entries := (addScan k v b.entries).1 }, h.count + 1,
      by simp only [hash_add_tail, hsc]⟩

theorem hash_add_unique_tail_shape (h : hash) (k : CKey) (v : Nat) (pos : Nat)
    (b : hash_bucket) :
    ∃ b2 c2, (hash_add_unique_tail h k v pos b).tbl =
      { h with buckets := h.buckets.set pos b2, count := c2 } := by
  cases hsc : uniqueScan k v b.entries with
  | none => exact ⟨b, h.count, by simp only [hash_add_unique_tail, hsc]⟩
  | some es2 =>
    exact ⟨{ b with entries := es2 }, h.count + 1,
      by simp only [hash_add_unique_tail, hsc]⟩

theorem hash_add_shape (h : hash) (k : CKey) (v : Nat) (ok : Bool) :
    (hash_add h k v ok).tbl = h ∨
      ∃ b2 c2, (hash_add h k v ok).tbl =
        { h with buckets := h.buckets.set (keyPos h k.bytes) b2, count := c2 } := by
  simp only [hash_add]
  by_cases hfull : (h.buckets.getD (keyPos h k.bytes) default).entries.length + 1
      ≥ (h.buckets.getD (keyPos h k.bytes) default).total
  · rw [if_pos hfull]
    cases ok
    · exact Or.inl rfl
    · rw [if_pos rfl]
      exact Or.inr (hash_add_tail_shape h k v _ _)
  · rw [if_neg hfull]
    exact Or.inr (hash_add_tail_shape h k v _ _)

theorem hash_add_unique_shape (h : hash) (k : CKey) (v : Nat) (ok : Bool) :
    (hash_add_unique h k v ok).tbl = h ∨
      ∃ b2 c2, (hash_add_unique h k v ok).tbl =
        { h with buckets := h.buckets.set (keyPos h k.bytes) b2, count := c2 } := by
  simp only [hash_add_unique]
  by_cases hfull : (h.buckets.getD (keyPos h k.bytes) default).entries.length + 1
      ≥ (h.buckets.getD (keyPos h k.bytes) default).total
  · rw [if_pos hfull]
    cases ok
    · exact Or.inl rfl
    · rw [if_pos rfl]
      exact Or.inr (hash_add_unique_tail_shape h k v _ _)
  · rw [if_neg hfull]
    exact Or.inr (hash_add_unique_tail_shape h k v _ _)

theorem hash_del_shape (h : hash) (kb : List Nat) (ok : Bool) :
    (hash_del h kb ok).tbl = h ∨
      ∃ b2 c2, (hash_del h kb ok).tbl =
        { h with buckets := h.buckets.set (keyPos h kb) b2, count := c2 } := by
  simp only [hash_del]
  by_cases hz : (h.buckets.getD (keyPos h kb) default).total = 0
  · rw [if_pos hz]
    exact Or.inl rfl
  · rw [if_neg hz]
    cases hb : bsearchIdx kb ((h.buckets.getD (keyPos h kb) default).entries) 0
        ((h.buckets.getD (keyPos h kb) default).entries.length) with
    | none =>
      simp only [hb]
      exact Or.inl trivial
    | some i =>
      simp only [hb]
      right
      exact ⟨_, _, rfl⟩

theorem frame_of_shape (h h2 : hash) (pos j : Nat) (hj : j ≠ pos)
    (hs : h2 = h ∨ ∃ b2 c2,
      h2 = { h with buckets := h.buckets.set pos b2, count := c2 }) :
    h2.n_buckets = h.n_buckets ∧ h2.step = h.step ∧
    h2.free_value = h.free_value ∧
    h2.buckets.getD j default = h.buckets.getD j default := by
  rcases hs with rfl | ⟨b2, c2, rfl⟩
  · exact ⟨rfl, rfl, rfl, rfl⟩
  · exact ⟨rfl, rfl, rfl, getD_set_ne_bucket _ _ _ _ hj⟩

/-! ## Claim theorems -/

/-- C5: in every table reachable from `hash_new` by any sequence of
`hash_add`, `hash_add_unique` and `hash_del` calls, the table's `count`
equals the sum of `used` over all buckets, and `hash_get_count` returns that
number. -/
theorem count_matches_sum (h : hash) (hr : Reach h) :
    h.count = sumUsed h ∧ hash_get_count h = sumUsed h := by
  have hinv := reach_inv hr
  exact ⟨hinv.2.2.2.1, hinv.2.2.2.1⟩

theorem count_matches_sum_witness :
    (hash_del (hash_add (hash_new 4 false) ⟨0, [97]⟩ 5 true).tbl [97] true).tbl.count
        = sumUsed (hash_del (hash_add (hash_new 4 false) ⟨0, [97]⟩ 5 true).tbl
            [97] true).tbl ∧
      hash_get_count (hash_del (hash_add (hash_new 4 false) ⟨0, [97]⟩ 5 true).tbl
          [97] true).tbl
        = sumUsed (hash_del (hash_add (hash_new 4 false) ⟨0, [97]⟩ 5 true).tbl
            [97] true).tbl :=
  count_matches_sum _ (Reach.del _ [97] true (Reach.add _ ⟨0, [97]⟩ 5 true
    (Reach.new 4 false)))

/-- C6: in every table reachable from `hash_new` by any sequence of
`hash_add`, `hash_add_unique` and `hash_del` calls, every bucket's entries
are strictly ascending by byte-wise key comparison, so no bucket holds two
entries with equal key bytes. -/
theorem buckets_strictly_sorted (h : hash) (hr : Reach h) :
    ∀ b ∈ h.buckets, sortedE b.entries ∧
      (b.entries.map fun e => e.key.bytes).Nodup := by
  intro b hb
  have hs := (reach_inv hr).2.2.2.2.1 b hb
  refine ⟨hs, ?_⟩
  have hp : List.Pairwise (fun a c => a ≠ c)
      (b.entries.map fun e => e.key.bytes) := by
    rw [List.pairwise_map]
    exact hs.imp fun hxy => kLt_ne hxy
  exact hp

theorem buckets_strictly_sorted_witness :
    sortedE (((hash_new 2 false).buckets.getD 0 default).entries) ∧
      (((hash_new 2 false).buckets.getD 0 default).entries.map
          fun e => e.key.bytes).Nodup :=
  buckets_strictly_sorted _ (Reach.new 2 false) _
    (by
      have hlen : 0 < (hash_new 2 false).buckets.length := by
        simp only [hash_new, List.length_replicate, align_power2]
        exact Nat.pos_pow_of_pos _ (by norm_num)
      rw [List.getD_eq_getElem _ _ hlen]
      exact List.getElem_mem _)

/-- C9: `hash_add` always succeeds when the growth allocation succeeds; when
it fails, the failure is exactly `-ENOMEM`, happens exactly when the bucket
was due to grow (`used + 1 >= total`) and the reallocation failed, and the
table is returned untouched with no destructor call. -/
theorem hash_add_error_atomic (h : hash) (k : CKey) (v : Nat) (ok : Bool) :
    (hash_add h k v true).ret = 0 ∧
    ((hash_add h k v ok).ret ≠ 0 →
      (hash_add h k v ok).ret = -ENOMEM ∧ ok = false ∧
      (h.buckets.getD (keyPos h k.bytes) default).entries.length + 1
        ≥ (h.buckets.getD (keyPos h k.bytes) default).total ∧
      (hash_add h k v ok).tbl = h ∧ (hash_add h k v ok).freed = []) := by
  refine ⟨hash_add_true_ret h k v, ?_⟩
  simp only [hash_add]
  by_cases hfull : (h.buckets.getD (keyPos h k.bytes) default).entries.length + 1
      ≥ (h.buckets.getD (keyPos h k.bytes) default).total
  · rw [if_pos hfull]
    cases ok
    · simp only [Bool.false_eq_true, if_false]
      intro _
      exact ⟨trivial, trivial, hfull, trivial, trivial⟩
    · rw [if_pos rfl]
      intro hret
      exact absurd (hash_add_tail_ret h k v _ _) hret
  · rw [if_neg hfull]
    intro hret
    exact absurd (hash_add_tail_ret h k v _ _) hret

/-- C10: each of `hash_add`, `hash_add_unique` and `hash_del` modifies at
most the one bucket the key hashes to: every other bucket (entries, used
count and capacity alike) and the table's `n_buckets`, `step` and
`free_value` fields are unchanged, whether the call succeeds or fails. -/
theorem ops_single_bucket_frame (h : hash) (k : CKey) (v : Nat) (ok : Bool)
    (j : Nat) (hj : j ≠ keyPos h k.bytes) :
    ((hash_add h k v ok).tbl.n_buckets = h.n_buckets ∧
     (hash_add h k v ok).tbl.step = h.step ∧
     (hash_add h k v ok).tbl.free_value = h.free_value ∧
     (hash_add h k v ok).tbl.buckets.getD j default = h.buckets.getD j default) ∧
    ((hash_add_unique h k v ok).tbl.n_buckets = h.n_buckets ∧
     (hash_add_unique h k v ok).tbl.step = h.step ∧
     (hash_add_unique h k v ok).tbl.free_value = h.free_value ∧
     (hash_add_unique h k v ok).tbl.buckets.getD j default
       = h.buckets.getD j default) ∧
    ((hash_del h k.bytes ok).tbl.n_buckets = h.n_buckets ∧
     (hash_del h k.bytes ok).tbl.step = h.step ∧
     (hash_del h k.bytes ok).tbl.free_value = h.free_value ∧
     (hash_del h k.bytes ok).tbl.buckets.getD j default
       = h.buckets.getD j default) :=
  ⟨frame_of_shape h _ (keyPos h k.bytes) j hj (hash_add_shape h k v ok),
   frame_of_shape h _ (keyPos h k.bytes) j hj (hash_add_unique_shape h k v ok),
   frame_of_shape h _ (keyPos h k.bytes) j hj (hash_del_shape h k.bytes ok)⟩

theorem ops_single_bucket_frame_witness :
    (1 : Nat) ≠ keyPos tbl3 (⟨0, [97]⟩ : CKey).bytes ∧
      (hash_add tbl3 ⟨0, [97]⟩ 5 true).tbl.buckets.getD 1 default
        = tbl3.buckets.getD 1 default :=
  ⟨by decide,
   (ops_single_bucket_frame tbl3 ⟨0, [97]⟩ 5 true 1 (by decide)).1.2.2.2⟩

/-- C8: for a key with no entry anywhere in the table, `hash_find` reports
it absent; and if `hash_add` of that key succeeds, `hash_find` on the
resulting table returns exactly the added value. -/
theorem add_find_roundtrip (h : hash) (k : CKey) (v : Nat) (ok : Bool)
    (hinv : Inv h)
    (habs : ∀ b ∈ h.buckets, ∀ e ∈ b.entries, e.key.bytes ≠ k.bytes) :
    ((hash_add h k v ok).ret = 0 →
      hash_find (hash_add h k v ok).tbl k.bytes = some v) ∧
    hash_find h k.bytes = none := by
  constructor
  · intro hret
    obtain ⟨hnb, hfv, hsort, hmem, htot⟩ := hash_add_success_post h k v ok hinv hret
    have hkp : keyPos (hash_add h k v ok).tbl k.bytes = keyPos h k.bytes :=
      keyPos_congr _ _ _ hnb
    apply hash_find_mem _ _ ⟨k, v⟩
    · rw [hkp]
      exact hsort
    · rw [hkp]
      omega
    · rw [hkp]
      exact hmem
    · rfl
  · apply hash_find_none
    rintro ⟨e, he, heb⟩
    by_cases hp : keyPos h k.bytes < h.buckets.length
    · refine habs _ ?_ e he heb
      rw [List.getD_eq_getElem _ _ hp]
      exact List.getElem_mem _
    · rw [List.getD_eq_getElem?_getD, List.getElem?_eq_none (by omega)] at he
      have hd : ((none : Option hash_bucket).getD default).entries = [] := rfl
      rw [hd] at he
      exact absurd he (List.not_mem_nil e)

theorem add_find_roundtrip_witness :
    hash_find tbl3 (⟨7, [100]⟩ : CKey).bytes = none ∧
    ((hash_add tbl3 ⟨7, [100]⟩ 9 true).ret = 0 →
      hash_find (hash_add tbl3 ⟨7, [100]⟩ 9 true).tbl (⟨7, [100]⟩ : CKey).bytes
        = some 9) :=
  ⟨(add_find_roundtrip tbl3 ⟨7, [100]⟩ 9 true (by decide) (by decide)).2,
   (add_find_roundtrip tbl3 ⟨7, [100]⟩ 9 true (by decide) (by decide)).1⟩

/-- C7: adding the same key bytes twice (the second time possibly through a
different key pointer) with two values succeeds both times when allocation
succeeds; afterwards `hash_find` returns only the second value, the second
call passes exactly the first value (and nothing else) to the destructor
when one is configured, the stored entry now carries the second key pointer,
and the second call leaves `count` unchanged. -/
theorem add_twice_upsert (h : hash) (k1 k2 : CKey) (v1 v2 : Nat)
    (hinv : Inv h) (hkb : k1.bytes = k2.bytes) (_hvne : v1 ≠ v2) :
    (hash_add h k1 v1 true).ret = 0 ∧
    (hash_add (hash_add h k1 v1 true).tbl k2 v2 true).ret = 0 ∧
    hash_find (hash_add (hash_add h k1 v1 true).tbl k2 v2 true).tbl k2.bytes
      = some v2 ∧
    (hash_add (hash_add h k1 v1 true).tbl k2 v2 true).freed
      = (if h.free_value then [v1] else []) ∧
    (hash_add (hash_add h k1 v1 true).tbl k2 v2 true).tbl.count
      = (hash_add h k1 v1 true).tbl.count ∧
    (∃ i, i < ((hash_add (hash_add h k1 v1 true).tbl k2 v2 true).tbl.buckets.getD
        (keyPos h k1.bytes) default).entries.length ∧
      ((hash_add (hash_add h k1 v1 true).tbl k2 v2 true).tbl.buckets.getD
        (keyPos h k1.bytes) default).entries.getD i default = ⟨k2, v2⟩) := by
  have hret1 : (hash_add h k1 v1 true).ret = 0 := hash_add_true_ret h k1 v1
  obtain ⟨hnb1, hfv1, hsort1, hmem1, htot1⟩ :=
    hash_add_success_post h k1 v1 true hinv hret1
  have hinv1 : Inv (hash_add h k1 v1 true).tbl := inv_hash_add h k1 v1 true hinv
  have hkp1 : keyPos (hash_add h k1 v1 true).tbl k2.bytes = keyPos h k1.bytes := by
    rw [keyPos_congr _ h _ hnb1, ← hkb]
  have hk2 : hasKeyB k2.bytes
      (((hash_add h k1 v1 true).tbl.buckets.getD
        (keyPos (hash_add h k1 v1 true).tbl k2.bytes) default).entries) := by
    rw [hkp1]
    exact ⟨⟨k1, v1⟩, hmem1, hkb⟩
  obtain ⟨i, hi, hib, hret2, hfreed2, hcnt2, hent2, hnb2, hfv2, htot2⟩ :=
    hash_add_replace_post (hash_add h k1 v1 true).tbl k2 v2 hinv1 hk2
  rw [hkp1] at hi hib hfreed2 hent2 htot2
  -- the replaced slot holds exactly the pair the first call stored
  obtain ⟨i1, hi1, hg1⟩ := mem_getD_index hmem1
  have hsort1b : sortedE (((hash_add h k1 v1 true).tbl.buckets.getD
      (keyPos h k1.bytes) default).entries) := hsort1
  have hii : i = i1 := by
    apply sortedE_unique_key hsort1b hi hi1
    rw [hg1, hib]
    exact hkb.symm
  have hslot : ((hash_add h k1 v1 true).tbl.buckets.getD
      (keyPos h k1.bytes) default).entries.getD i default = ⟨k1, v1⟩ := by
    rw [hii, hg1]
  have hkp2 : keyPos (hash_add (hash_add h k1 v1 true).tbl k2 v2 true).tbl k2.bytes
      = keyPos h k1.bytes := by
    rw [keyPos_congr _ (hash_add h k1 v1 true).tbl _ hnb2, hkp1]
  have hilen2 : i < ((hash_add (hash_add h k1 v1 true).tbl k2 v2 true).tbl.buckets.getD
      (keyPos h k1.bytes) default).entries.length := by
    rw [hent2, List.length_set]
    exact hi
  have hmem2 : (⟨k2, v2⟩ : hash_entry) ∈
      ((hash_add (hash_add h k1 v1 true).tbl k2 v2 true).tbl.buckets.getD
        (keyPos h k1.bytes) default).entries := by
    rw [hent2]
    rw [List.mem_iff_getElem]
    refine ⟨i, by simpa using hi, ?_⟩
    rw [List.getElem_set_self]
  have hinv2 : Inv (hash_add (hash_add h k1 v1 true).tbl k2 v2 true).tbl :=
    inv_hash_add _ k2 v2 true hinv1
  refine ⟨hret1, hret2, ?_, ?_, hcnt2, ?_⟩
  · apply hash_find_mem _ _ ⟨k2, v2⟩
    · rw [hkp2]
      have hb := bucket_sorted_at _ hinv2 (keyPos h k1.bytes)
      exact hb
    · rw [hkp2]
      omega
    · rw [hkp2]
      exact hmem2
    · rfl
  · rw [hfreed2, hslot, hfv1]
  · refine ⟨i, hilen2, ?_⟩
    rw [hent2, List.getD_eq_getElem _ _ (by simpa using hi), List.getElem_set_self]

theorem add_twice_upsert_witness :
    (⟨0, [97]⟩ : CKey).bytes = (⟨5, [97]⟩ : CKey).bytes ∧
    hash_find (hash_add (hash_add tbl3d ⟨0, [97]⟩ 41 true).tbl
        ⟨5, [97]⟩ 42 true).tbl (⟨5, [97]⟩ : CKey).bytes = some 42 ∧
    (hash_add (hash_add tbl3d ⟨0, [97]⟩ 41 true).tbl ⟨5, [97]⟩ 42 true).freed
      = (if tbl3d.free_value then [41] else []) :=
  ⟨by decide,
   (add_twice_upsert tbl3d ⟨0, [97]⟩ ⟨5, [97]⟩ 41 42 (by decide) (by decide)
      (by decide)).2.2.1,
   (add_twice_upsert tbl3d ⟨0, [97]⟩ ⟨5, [97]⟩ 41 42 (by decide) (by decide)
      (by decide)).2.2.2.1⟩

/-- C1 counterexample: on `tbl3` — one bucket, keys "a","b","c" filling 3 of
4 slots — `hash_add_unique` of the already present key "b" does fail with
`-EEXIST` and calls no destructor, but it does not leave the table entirely
unchanged: the growth step that runs before the duplicate check has already
grown the bucket's capacity from 4 to 8 slots. -/
theorem add_unique_duplicate_counterexample :
    (hash_add_unique tbl3 ⟨9, [98]⟩ 99 true).ret = -EEXIST ∧
    ((hash_add_unique tbl3 ⟨9, [98]⟩ 99 true).tbl.buckets.getD 0 default).total = 8 ∧
    (tbl3.buckets.getD 0 default).total = 4 ∧
    (hash_add_unique tbl3 ⟨9, [98]⟩ 99 true).tbl ≠ tbl3 := by decide

/-- C1 (amended): `hash_add_unique` of a key already present in its (sorted)
bucket fails with `-EEXIST` when the pre-growth allocation succeeds, invokes
no destructor, and leaves every bucket's entries, every other bucket, the
used counts, `entry_count`, `n_buckets`, `step` and the destructor unchanged
— except that the target bucket's capacity has already grown by one step
when the call found `used + 1 ≥ capacity`. -/
theorem add_unique_existing_key (h : hash) (k : CKey) (v : Nat)
    (hs : sortedE ((h.buckets.getD (keyPos h k.bytes) default).entries))
    (hk : hasKeyB k.bytes ((h.buckets.getD (keyPos h k.bytes) default).entries)) :
    (hash_add_unique h k v true).ret = -EEXIST ∧
    (hash_add_unique h k v true).freed = [] ∧
    (hash_add_unique h k v true).tbl.count = h.count ∧
    (hash_add_unique h k v true).tbl.n_buckets = h.n_buckets ∧
    (hash_add_unique h k v true).tbl.step = h.step ∧
    (hash_add_unique h k v true).tbl.free_value = h.free_value ∧
    (∀ j, ((hash_add_unique h k v true).tbl.buckets.getD j default).entries
      = (h.buckets.getD j default).entries) ∧
    (∀ j, j ≠ keyPos h k.bytes →
      (hash_add_unique h k v true).tbl.buckets.getD j default
        = h.buckets.getD j default) ∧
    ((hash_add_unique h k v true).tbl.buckets.getD (keyPos h k.bytes) default).total
      = (if (h.buckets.getD (keyPos h k.bytes) default).entries.length + 1
            ≥ (h.buckets.getD (keyPos h k.bytes) default).total
         then (h.buckets.getD (keyPos h k.bytes) default).total + h.step
         else (h.buckets.getD (keyPos h k.bytes) default).total) := by
  have hpos : keyPos h k.bytes < h.buckets.length := by
    by_contra hnp
    rw [List.getD_eq_getElem?_getD, List.getElem?_eq_none (by omega)] at hk
    obtain ⟨e, he, _⟩ := hk
    have hd : ((none : Option hash_bucket).getD default).entries = [] := rfl
    rw [hd] at he
    exact absurd he (List.not_mem_nil e)
  have hget : ∀ b2 : hash_bucket,
      ((h.buckets.set (keyPos h k.bytes) b2).getD (keyPos h k.bytes) default) = b2 := by
    intro b2
    rw [List.getD_eq_getElem _ _ (by simpa using hpos), List.getElem_set_self]
  have hgets : ∀ (b2 : hash_bucket) (j : Nat),
      ((h.buckets.set (keyPos h k.bytes) b2).getD j default).entries
        = (if j = keyPos h k.bytes then b2.entries
           else (h.buckets.getD j default).entries) := by
    intro b2 j
    by_cases hj : j = keyPos h k.bytes
    · rw [if_pos hj, hj, hget]
    · rw [if_neg hj, getD_set_ne_bucket _ _ _ _ hj]
  simp only [hash_add_unique]
  by_cases hfull : (h.buckets.getD (keyPos h k.bytes) default).entries.length + 1
      ≥ (h.buckets.getD (keyPos h k.bytes) default).total
  · rw [if_pos hfull, if_pos trivial]
    have huniq : uniqueScan k v
        ({ h.buckets.getD (keyPos h k.bytes) default with
            total := (h.buckets.getD (keyPos h k.bytes) default).total + h.step
          } : hash_bucket).entries = none :=
      uniqueScan_found k v _ hs hk
    simp only [hash_add_unique_tail, huniq]
    refine ⟨trivial, trivial, trivial, trivial, trivial, trivial, ?_, ?_, ?_⟩
    · intro j
      rw [hgets]
      by_cases hj : j = keyPos h k.bytes
      · rw [if_pos hj, hj]
      · rw [if_neg hj]
    · intro j hj
      exact getD_set_ne_bucket _ _ _ _ hj
    · rw [hget, if_pos hfull]
  · rw [if_neg hfull]
    have huniq : uniqueScan k v
        ((h.buckets.getD (keyPos h k.bytes) default) : hash_bucket).entries = none :=
      uniqueScan_found k v _ hs hk
    simp only [hash_add_unique_tail, huniq]
    refine ⟨trivial, trivial, trivial, trivial, trivial, trivial, ?_, ?_, ?_⟩
    · intro j
      rw [hgets]
      by_cases hj : j = keyPos h k.bytes
      · rw [if_pos hj, hj]
      · rw [if_neg hj]
    · intro j hj
      exact getD_set_ne_bucket _ _ _ _ hj
    · rw [hget, if_neg hfull]

theorem add_unique_existing_key_witness :
    hasKeyB (⟨9, [98]⟩ : CKey).bytes
      ((tbl3.buckets.getD (keyPos tbl3 (⟨9, [98]⟩ : CKey).bytes) default).entries) ∧
    (hash_add_unique tbl3 ⟨9, [98]⟩ 99 true).ret = -EEXIST ∧
    (hash_add_unique tbl3 ⟨9, [98]⟩ 99 true).freed = [] :=
  ⟨by decide,
   (add_unique_existing_key tbl3 ⟨9, [98]⟩ 99 (by decide) (by decide)).1,
   (add_unique_existing_key tbl3 ⟨9, [98]⟩ 99 (by decide) (by decide)).2.1⟩

/-- C3: deleting a present key (bucket sorted and table invariant-satisfying)
invokes the destructor on exactly that key's value when one is configured,
closes the gap by erasing that entry, decrements the bucket's used count and
the table's count, and shrinks the capacity to `(used/step + 1) * step`
exactly when `used/step + 1 < capacity/step` (with `used` the decremented
count) and the reallocation succeeds; a failed shrink keeps the old capacity
and the deletion still returns success. -/
theorem del_present_key (h : hash) (kb : List Nat) (ok : Bool)
    (hinv : Inv h)
    (hk : hasKeyB kb ((h.buckets.getD (keyPos h kb) default).entries)) :
    ∃ i, i < (h.buckets.getD (keyPos h kb) default).entries.length ∧
      ((h.buckets.getD (keyPos h kb) default).entries.getD i default).key.bytes
        = kb ∧
      (hash_del h kb ok).ret = 0 ∧
      (hash_del h kb ok).freed = (if h.free_value then
        [((h.buckets.getD (keyPos h kb) default).entries.getD i default).value]
        else []) ∧
      ((hash_del h kb ok).tbl.buckets.getD (keyPos h kb) default).entries
        = (h.buckets.getD (keyPos h kb) default).entries.eraseIdx i ∧
      ((hash_del h kb ok).tbl.buckets.getD (keyPos h kb) default).entries.length + 1
        = (h.buckets.getD (keyPos h kb) default).entries.length ∧
      (hash_del h kb ok).tbl.count + 1 = h.count ∧
      (((h.buckets.getD (keyPos h kb) default).entries.length - 1) / h.step + 1
          < (h.buckets.getD (keyPos h kb) default).total / h.step →
        ((hash_del h kb ok).tbl.buckets.getD (keyPos h kb) default).total
          = (if ok then
              (((h.buckets.getD (keyPos h kb) default).entries.length - 1) / h.step
                  + 1) * h.step
             else (h.buckets.getD (keyPos h kb) default).total)) ∧
      (¬ (((h.buckets.getD (keyPos h kb) default).entries.length - 1) / h.step + 1
          < (h.buckets.getD (keyPos h kb) default).total / h.step) →
        ((hash_del h kb ok).tbl.buckets.getD (keyPos h kb) default).total
          = (h.buckets.getD (keyPos h kb) default).total) := by
  have hpos : keyPos h kb < h.buckets.length := by
    by_contra hnp
    rw [List.getD_eq_getElem?_getD, List.getElem?_eq_none (by omega)] at hk
    obtain ⟨e, he, _⟩ := hk
    have hd : ((none : Option hash_bucket).getD default).entries = [] := rfl
    rw [hd] at he
    exact absurd he (List.not_mem_nil e)
  have hs : sortedE ((h.buckets.getD (keyPos h kb) default).entries) :=
    bucket_sorted_at h hinv _
  have hused1 : 0 < (h.buckets.getD (keyPos h kb) default).entries.length := by
    obtain ⟨e, he, _⟩ := hk
    exact List.length_pos_of_mem he
  have hz : (h.buckets.getD (keyPos h kb) default).total ≠ 0 := by
    have hc := bucket_cap_at h hinv (keyPos h kb)
    omega
  have hcnt1 : 0 < h.count := by
    have hsum := getD_le_sum h.buckets (keyPos h kb) hpos
    have hcnt := hinv.2.2.2.1
    rw [sumUsed] at hcnt
    omega
  obtain ⟨j, hfind, hjlen, hjb⟩ := bsearch_found_of_hasKey hs hk
  have hget : ∀ b2 : hash_bucket,
      ((h.buckets.set (keyPos h kb) b2).getD (keyPos h kb) default) = b2 := by
    intro b2
    rw [List.getD_eq_getElem _ _ (by simpa using hpos), List.getElem_set_self]
  refine ⟨j, hjlen, hjb, ?_⟩
  simp only [hash_del, if_neg hz, hfind]
  have herase : ((h.buckets.getD (keyPos h kb) default).entries.eraseIdx j).length
      = (h.buckets.getD (keyPos h kb) default).entries.length - 1 := by
    rw [List.length_eraseIdx, if_pos hjlen]
  refine ⟨trivial, trivial, ?_, ?_, ?_, ?_, ?_⟩
  · rw [hget]
  · rw [hget, herase]
    omega
  · show h.count - 1 + 1 = h.count
    omega
  · intro hcond
    rw [hget]
    simp only [herase]
    cases ok
    · rw [if_neg (fun hc => absurd hc.2 (by simp)), if_neg (by simp)]
    · rw [if_pos ⟨hcond, rfl⟩, if_pos rfl]
  · intro hcond
    rw [hget]
    simp only [herase]
    rw [if_neg (fun hc => absurd hc.1 hcond)]

theorem del_present_key_witness :
    hasKeyB [98] ((tbl3.buckets.getD (keyPos tbl3 [98]) default).entries) ∧
    (hash_del tbl3 [98] true).ret = 0 ∧
    (hash_del tbl3 [98] true).tbl.count + 1 = tbl3.count := by
  refine ⟨by decide, ?_, ?_⟩
  · obtain ⟨i, _, _, hret, _⟩ := del_present_key tbl3 [98] true (by decide) (by decide)
    exact hret
  · obtain ⟨i, _, _, _, _, _, _, hcnt, _⟩ :=
      del_present_key tbl3 [98] true (by decide) (by decide)
    exact hcnt

/-- C4: on any invariant-satisfying table, a full traversal (`hash_iter_init`
followed by `hash_iter_next` until the end marker) yields exactly the live
(key, value) pairs in bucket-major order (`allPairs`), with each bucket's
entries strictly ascending by key, skipping empty buckets; no key is yielded
twice, the total yielded equals `hash_get_count`, and on a table with no
entries the very first advance returns the end marker. -/
theorem iteration_yields_all (h : hash) (hinv : Inv h) :
    iterAll h = allPairs h ∧
    (∀ b ∈ h.buckets, sortedE b.entries) ∧
    ((iterAll h).map fun p => p.1.bytes).Nodup ∧
    (iterAll h).length = hash_get_count h ∧
    (hash_get_count h = 0 → hash_iter_next h hash_iter_init = none) := by
  have hlen := hinv.1
  have hA : iterAll h = allPairs h := iterAll_eq h hlen
  have hsrt := hinv.2.2.2.2.1
  have hplc := hinv.2.2.2.2.2.1
  have hcnt := hinv.2.2.2.1
  refine ⟨hA, hsrt, ?_, ?_, ?_⟩
  · rw [hA, allPairs, List.map_flatten, List.map_map, List.nodup_flatten]
    constructor
    · intro l hl
      obtain ⟨b, hb, hbl⟩ := List.mem_map.mp hl
      rw [← hbl]
      have hsb := hsrt b hb
      have hcomp : ((List.map fun p => p.1.bytes) ∘ bucketPairs) b
          = b.entries.map fun e => e.key.bytes := by
        simp [bucketPairs, Function.comp, List.map_map]
      rw [hcomp]
      have hp : List.Pairwise (fun a c => a ≠ c)
          (b.entries.map fun e => e.key.bytes) := by
        rw [List.pairwise_map]
        exact hsb.imp fun hxy => kLt_ne hxy
      exact hp
    · rw [List.pairwise_map, List.pairwise_iff_getElem]
      intro i j hi hj hij
      intro kb hkbi hkbj
      have hcomp : ∀ bx : hash_bucket, ((List.map fun p => p.1.bytes) ∘ bucketPairs) bx
          = bx.entries.map fun e => e.key.bytes := by
        intro bx
        simp [bucketPairs, Function.comp, List.map_map]
      rw [hcomp] at hkbi hkbj
      obtain ⟨e1, he1, he1b⟩ := List.mem_map.mp hkbi
      obtain ⟨e2, he2, he2b⟩ := List.mem_map.mp hkbj
      have hp1 : keyPos h e1.key.bytes = i := by
        apply hplc i hi
        rw [List.getD_eq_getElem _ _ hi]
        exact he1
      have hp2 : keyPos h e2.key.bytes = j := by
        apply hplc j hj
        rw [List.getD_eq_getElem _ _ hj]
        exact he2
      rw [he1b] at hp1
      rw [he2b] at hp2
      omega
  · rw [hA, allPairs_length, hash_get_count, hcnt]
  · intro hc0
    rw [hash_get_count] at hc0
    have hz : ∀ j, j < h.buckets.length →
        (h.buckets.getD j default).entries.length = 0 := by
      intro j hj
      have hsum : sumUsed h = 0 := by
        rw [← hcnt]
        exact hc0
      rw [sumUsed] at hsum
      have hmem : (h.buckets.getD j default).entries.length ∈
          (h.buckets.map fun b => b.entries.length) := by
        rw [List.getD_eq_getElem _ _ hj]
        exact List.mem_map.mpr ⟨_, List.getElem_mem _, rfl⟩
      exact List.sum_eq_zero_iff.mp hsum _ hmem
    have hb0 : (h.buckets.getD 0 default).entries.length = 0 := by
      by_cases h0 : 0 < h.buckets.length
      · exact hz 0 h0
      · rw [List.getD_eq_getElem?_getD, List.getElem?_eq_none (by omega)]
        rfl
    obtain ⟨sp1, sp2, sp3, sp4⟩ := nextBucket_spec h h.n_buckets 1 (by omega)
    have hnb : nextBucket h 1 ≥ h.n_buckets := by
      by_contra hlt2
      push_neg at hlt2
      have := sp2 hlt2
      have := hz (nextBucket h 1) (by omega)
      omega
    simp only [hash_iter_next, hash_iter_init]
    rw [if_pos (by rw [hb0]; norm_num), if_pos hnb]

theorem iteration_yields_all_witness :
    iterAll tbl3 = allPairs tbl3 ∧ (iterAll tbl3).length = hash_get_count tbl3 :=
  ⟨(iteration_yields_all tbl3 (by decide)).1,
   (iteration_yields_all tbl3 (by decide)).2.2.2.1⟩

end KmodHash
